import Mathlib

/-!
Verification of the regularization-and-aggregation grocery-list engine.

The development embeds the two implementations of the engine
(`functional.py` and `oop.py`, together with the data models of
`data_models.py`) as executable Lean definitions:

* quantity values are exact rationals (the source relies on Python floats;
  the claims under study are exact linear-unit arithmetic);
* a unit is a physical dimension together with a positive linear scale to a
  fixed base unit of that dimension (astropy units are linear with positive
  scale; positivity is carried as a hypothesis where a proof needs it);
* a cross-dimension conversion factor (astropy quantity with a composite
  unit such as `cup / g`) is a value with a numerator and denominator unit;
* dimension algebra of composite units is tracked by exponent vectors, as
  astropy does, so that a division followed by a conversion succeeds
  exactly when the dimensions cancel to the target dimension;
* Python exceptions become an `Except` error value:
  `unitConversionError` for astropy's UnitConversionError raised by `.to`
  and `+` on incompatible dimensions, `valueError` for the explicit
  `raise ValueError` of the regularization code (carrying the data the
  message interpolates), and `typeError` for the TypeError raised when a
  quantity is divided by a missing (`None`) conversion factor.
-/

/-- Physical dimension of a simple unit: the engine distinguishes mass,
volume and countable units. -/
inductive Dimension where
  | mass : Dimension
  | volume : Dimension
  | count : Dimension
deriving DecidableEq

/-- Exponent vector of a (possibly composite) physical dimension. -/
structure DimVec where
  mass : Int
  volume : Int
  count : Int
deriving DecidableEq

/-- Pointwise sum of dimension exponent vectors. -/
def DimVec.add (a b : DimVec) : DimVec :=
  ⟨a.mass + b.mass, a.volume + b.volume, a.count + b.count⟩

/-- Pointwise difference of dimension exponent vectors. -/
def DimVec.sub (a b : DimVec) : DimVec :=
  ⟨a.mass - b.mass, a.volume - b.volume, a.count - b.count⟩

/-- The exponent vector of a simple dimension. -/
def Dimension.vec : Dimension → DimVec
  | .mass => ⟨1, 0, 0⟩
  | .volume => ⟨0, 1, 0⟩
  | .count => ⟨0, 0, 1⟩

/-- A simple linear unit: its physical dimension and its scale relative to a
fixed base unit of that dimension (e.g. with gram as the mass base unit,
kilogram has factor 1000). Real units have a positive scale. -/
structure UnitBase where
  dim : Dimension
  factor : ℚ
deriving DecidableEq

/-- A measured value tagged with its unit (astropy `Quantity` restricted to
simple units, which is all the data models allow). -/
structure Quantity where
  value : ℚ
  unit : UnitBase
deriving DecidableEq

/-- The error outcomes of the engine, mirroring the Python exceptions.
`valueError` carries the item name, the offending quantity and the
preferred unit, the data interpolated into the exception message. -/
inductive QuantityError where
  | unitConversionError : QuantityError
  | valueError : String → Quantity → UnitBase → QuantityError
  | typeError : QuantityError
deriving DecidableEq

/-- astropy `Quantity.to`: convert to a target unit of the same dimension by
linear rescaling; raise `UnitConversionError` on a dimension mismatch. -/
def Quantity.to (q : Quantity) (u : UnitBase) : Except QuantityError Quantity :=
  if q.unit.dim = u.dim then
    Except.ok ⟨q.value * q.unit.factor / u.factor, u⟩
  else
    Except.error QuantityError.unitConversionError

/-- astropy `+` on quantities: the right operand is converted to the left
operand's unit and the values are summed; raises `UnitConversionError` when
the dimensions differ. -/
def Quantity.add (a b : Quantity) : Except QuantityError Quantity :=
  if b.unit.dim = a.unit.dim then
    Except.ok ⟨a.value + b.value * (b.unit.factor / a.unit.factor), a.unit⟩
  else
    Except.error QuantityError.unitConversionError

/-- A conversion factor: an astropy quantity whose unit is a ratio of two
simple units, such as `0.002 cup / g`. -/
structure Ratio where
  value : ℚ
  num : UnitBase
  den : UnitBase
deriving DecidableEq

/-- Division of a quantity by a `Ratio` factor followed by `.to(target)`,
exactly the `quantity / factor` ... `.to(material.unit)` sequence of both
implementations.  The division always succeeds in astropy and produces the
composite unit `q.unit * r.den / r.num`; the subsequent `.to` succeeds
exactly when the composite's dimension exponents equal the target's, and
then rescales by the linear factors. -/
def Quantity.divTo (q : Quantity) (r : Ratio) (target : UnitBase) :
    Except QuantityError Quantity :=
  if (q.unit.dim.vec.add r.den.dim.vec).sub r.num.dim.vec = target.dim.vec then
    Except.ok
      ⟨q.value * q.unit.factor * r.den.factor / (r.value * r.num.factor) / target.factor,
        target⟩
  else
    Except.error QuantityError.unitConversionError

/-- `MaterialData` of `data_models.py`: a known material with a preferred
unit and optional mass / volume conversion factors. -/
structure MaterialData where
  name : String
  unit : UnitBase
  mass_per_unit : Option Ratio
  volume_per_unit : Option Ratio
deriving DecidableEq

/-- `IngredientData` of `data_models.py`: an item name with a quantity. -/
structure IngredientData where
  quantity : Quantity
  item : String
deriving DecidableEq

/-- `RecipeData` of `data_models.py`. -/
structure RecipeData where
  name : String
  source : String
  ingredients : List IngredientData
  instructions : List String
deriving DecidableEq

/-- The dict comprehension `{material.name: material for material in
material_definitions}`: a name lookup in which a later entry with the same
name wins. -/
def material_lookup (material_definitions : List MaterialData) :
    String → Option MaterialData :=
  fun name =>
    material_definitions.foldl
      (fun acc material => if material.name = name then some material else acc) none

/-- `functional.regularize_ingredient`: adjust the quantity of an ingredient
to the preferred unit of its matching known material, if any. -/
def regularize_ingredient (ingredient : IngredientData)
    (known_materials : String → Option MaterialData) :
    Except QuantityError IngredientData :=
  match known_materials ingredient.item with
  | some material =>
    if ingredient.quantity.unit.dim = material.unit.dim then
      (ingredient.quantity.to material.unit).map (fun q => ⟨q, ingredient.item⟩)
    else if ingredient.quantity.unit.dim = Dimension.mass then
      match material.mass_per_unit with
      | none => Except.error QuantityError.typeError
      | some factor =>
        (ingredient.quantity.divTo factor material.unit).map (fun q => ⟨q, ingredient.item⟩)
    else if ingredient.quantity.unit.dim = Dimension.volume then
      match material.volume_per_unit with
      | none => Except.error QuantityError.typeError
      | some factor =>
        (ingredient.quantity.divTo factor material.unit).map (fun q => ⟨q, ingredient.item⟩)
    else
      Except.error
        (QuantityError.valueError ingredient.item ingredient.quantity material.unit)
  | none => Except.ok ingredient

/-- `functional.regularize_recipe`: regularize every ingredient of a recipe,
keeping name, source and instructions. -/
def regularize_recipe (recipe : RecipeData)
    (known_materials : String → Option MaterialData) :
    Except QuantityError RecipeData :=
  (recipe.ingredients.mapM (fun i => regularize_ingredient i known_materials)).map
    (fun ings => ⟨recipe.name, recipe.source, ings, recipe.instructions⟩)

/-- The sort key of `add_recipe_to_ingredients`: Python's string comparison
is codepoint-lexicographic, which is the lexicographic order on the
character data of the two item names. -/
def itemLe (a b : IngredientData) : Prop :=
  a.item.data ≤ b.item.data

instance : DecidableRel itemLe :=
  fun a b => inferInstanceAs (Decidable (a.item.data ≤ b.item.data))

instance : IsTotal IngredientData itemLe :=
  ⟨fun a b => le_total a.item.data b.item.data⟩

instance : IsTrans IngredientData itemLe :=
  ⟨fun _ _ _ h₁ h₂ => le_trans h₁ h₂⟩

/-- Strict version of `itemLe`, used to state that merged output names are
strictly ascending. -/
def itemLt (a b : IngredientData) : Prop :=
  a.item.data < b.item.data

/-- One step of the fold inside `add_recipe_to_ingredients`: compare the
ingredient with the end of the accumulated list; if it is the same item,
merge them (the Python expression `merged_ingredients[:-1] + [IngredientData
(item=..., quantity=ingredient.quantity + merged_ingredients[-1].quantity)]`),
otherwise append it. -/
def mergeStep (merged_ingredients : List IngredientData)
    (ingredient : IngredientData) : Except QuantityError (List IngredientData) :=
  match merged_ingredients.getLast? with
  | some last =>
    if ingredient.item = last.item then
      (ingredient.quantity.add last.quantity).map
        (fun q => merged_ingredients.dropLast ++ [⟨q, ingredient.item⟩])
    else
      Except.ok (merged_ingredients ++ [ingredient])
  | none => Except.ok (merged_ingredients ++ [ingredient])

/-- `functional.add_recipe_to_ingredients`: concatenate the accumulated
ingredients with the recipe's, stable-sort by item name (Python `sorted`
with an item key; insertion sort with a non-strict comparison is the unique
stable sort), then fold `mergeStep` from an empty list. -/
def add_recipe_to_ingredients (ingredients : List IngredientData)
    (recipe : RecipeData) : Except QuantityError (List IngredientData) :=
  (List.insertionSort itemLe (ingredients ++ recipe.ingredients)).foldlM mergeStep []

/-- `functional.create_grocery_list`: regularize each recipe against the
material lookup and merge it into the accumulated ingredient list, in
recipe order, starting from the empty list. -/
def create_grocery_list (recipes : List RecipeData)
    (material_definitions : List MaterialData) :
    Except QuantityError (List IngredientData) :=
  recipes.foldlM
    (fun ingredients recipe => do
      let regularized ← regularize_recipe recipe (material_lookup material_definitions)
      add_recipe_to_ingredients ingredients regularized)
    []

/-- `oop.Ingredient`: an ingredient bound to its material, with its quantity
already regularized by the constructor. -/
structure Ingredient where
  material : MaterialData
  quantity : Quantity
deriving DecidableEq

/-- The body of `oop.Ingredient.__init__`: keep the quantity when its
dimension already matches the material's, otherwise apply
`Material.regularize_physical_type` (divide by the factor matching the
quantity's dimension, or raise ValueError), then
`Material.regularize_unit` (`.to(material.unit)`).  Dividing by an absent
(`None`) factor raises TypeError. -/
def Ingredient.init (quantity : Quantity) (material : MaterialData) :
    Except QuantityError Quantity :=
  if quantity.unit.dim = material.unit.dim then
    quantity.to material.unit
  else if quantity.unit.dim = Dimension.mass then
    match material.mass_per_unit with
    | none => Except.error QuantityError.typeError
    | some factor => quantity.divTo factor material.unit
  else if quantity.unit.dim = Dimension.volume then
    match material.volume_per_unit with
    | none => Except.error QuantityError.typeError
    | some factor => quantity.divTo factor material.unit
  else
    Except.error (QuantityError.valueError material.name quantity material.unit)

/-- `oop.MaterialDefinitions.load_ingredient`: look the item up; on a miss,
synthesize a pass-through material from the ingredient's own unit and
register it (the one mutation of the lookup), then construct the
`Ingredient`.  The updated lookup is returned alongside. -/
def load_ingredient (lookup : String → Option MaterialData)
    (ingredient_data : IngredientData) :
    Except QuantityError (Ingredient × (String → Option MaterialData)) :=
  match lookup ingredient_data.item with
  | some material =>
    (Ingredient.init ingredient_data.quantity material).map
      (fun q => (⟨material, q⟩, lookup))
  | none =>
    let new_material : MaterialData :=
      ⟨ingredient_data.item, ingredient_data.quantity.unit, none, none⟩
    (Ingredient.init ingredient_data.quantity new_material).map
      (fun q =>
        (⟨new_material, q⟩,
          fun n => if n = new_material.name then some new_material else lookup n))

/-- The per-recipe ingredient loading loop of `oop.ShoppingCart.from_files`,
threading the (possibly growing) material lookup left to right. -/
def load_ingredients (lookup : String → Option MaterialData) :
    List IngredientData →
    Except QuantityError (List Ingredient × (String → Option MaterialData))
  | [] => Except.ok ([], lookup)
  | i :: rest => do
    let (ing, lookup₁) ← load_ingredient lookup i
    let (ings, lookup₂) ← load_ingredients lookup₁ rest
    Except.ok (ing :: ings, lookup₂)

/-- The recipe loop of `oop.ShoppingCart.from_files`: load every recipe's
ingredients in order, threading the material lookup. -/
def load_recipes (lookup : String → Option MaterialData) :
    List RecipeData →
    Except QuantityError (List (List Ingredient) × (String → Option MaterialData))
  | [] => Except.ok ([], lookup)
  | r :: rest => do
    let (ings, lookup₁) ← load_ingredients lookup r.ingredients
    let (rss, lookup₂) ← load_recipes lookup₁ rest
    Except.ok (ings :: rss, lookup₂)

/-- Lookup in the shopping-cart dict (an insertion-ordered map modelled as
an association list with distinct keys). -/
def cart_get : List (String × Quantity) → String → Option Quantity
  | [], _ => none
  | p :: rest, n => if p.1 = n then some p.2 else cart_get rest n

/-- In-place update of the shopping-cart dict at an existing key. -/
def cart_update : List (String × Quantity) → String → Quantity → List (String × Quantity)
  | [], _, _ => []
  | p :: rest, n, q => if p.1 = n then (n, q) :: rest else p :: cart_update rest n q

/-- One iteration of `oop.ShoppingCart.get_shopping_list`: on a fresh
material name, insert `Ingredient(quantity=0*material.unit, material=...)`
(whose constructor regularizes the zero quantity) and then `+=` the
ingredient's quantity; on a seen name just `+=`. -/
def get_shopping_list_step (cart : List (String × Quantity)) (ingredient : Ingredient) :
    Except QuantityError (List (String × Quantity)) :=
  match cart_get cart ingredient.material.name with
  | none => do
    let zero ← Ingredient.init ⟨0, ingredient.material.unit⟩ ingredient.material
    let q ← zero.add ingredient.quantity
    Except.ok (cart ++ [(ingredient.material.name, q)])
  | some q₀ => do
    let q ← q₀.add ingredient.quantity
    Except.ok (cart_update cart ingredient.material.name q)

/-- `oop.ShoppingCart.get_shopping_list`: accumulate every loaded
ingredient, recipe by recipe, into the cart dict; the result lists the cart
values in insertion order, each rendered as its material name and summed
quantity. -/
def get_shopping_list (ingredients : List Ingredient) :
    Except QuantityError (List (String × Quantity)) :=
  ingredients.foldlM get_shopping_list_step []

/-- The OOP pipeline end to end: build the material lookup, load all
recipes (as `from_files` does), then compute the shopping list. -/
def oop_shopping_list (recipes : List RecipeData)
    (material_definitions : List MaterialData) :
    Except QuantityError (List (String × Quantity)) := do
  let (recipe_ingredients, _) ← load_recipes (material_lookup material_definitions) recipes
  get_shopping_list recipe_ingredients.flatten

/-- Gram, the base mass unit of the examples. -/
def gram : UnitBase := ⟨Dimension.mass, 1⟩

/-- Kilogram: 1000 grams. -/
def kilogram : UnitBase := ⟨Dimension.mass, 1000⟩

/-- Cup, taken as the base volume unit of the examples. -/
def cup : UnitBase := ⟨Dimension.volume, 1⟩

/-- The dimensionless counting unit. -/
def countUnit : UnitBase := ⟨Dimension.count, 1⟩

/-- The spec's Flour material: canonical unit gram, volume factor
`0.002 cup / g`. -/
def flour : MaterialData := ⟨"Flour", gram, none, some ⟨1/500, cup, gram⟩⟩

/-- The spec's Rice material: canonical unit cup, no conversion factors. -/
def rice : MaterialData := ⟨"Rice", cup, none, none⟩

/-- A material with a mass canonical unit and no conversion factors at all. -/
def mysteryMass : MaterialData := ⟨"Mystery", gram, none, none⟩

/-- A structural characterization of the merge fold: `mergeRun done cur
rest` processes the still-unseen `rest` while holding the already-emitted
groups `done` and the group currently being built `cur`; it is
extensionally the `foldlM mergeStep` of `add_recipe_to_ingredients`, but
recurses structurally, which makes the fold invariants provable by plain
induction. -/
def mergeRun : List IngredientData → Option IngredientData → List IngredientData →
    Except QuantityError (List IngredientData)
  | done, none, [] => Except.ok done
  | done, none, x :: rest => mergeRun done (some x) rest
  | done, some c, [] => Except.ok (done ++ [c])
  | done, some c, x :: rest =>
    if x.item = c.item then
      match x.quantity.add c.quantity with
      | Except.ok q => mergeRun done (some ⟨q, x.item⟩) rest
      | Except.error e => Except.error e
    else
      mergeRun (done ++ [c]) (some x) rest

/-- Entries named `n`, in order. -/
def filterName (n : String) (l : List IngredientData) : List IngredientData :=
  l.filter (fun i => i.item = n)

/-- The canonical unit the engine assigns to a catalogued name. -/
def canonUnit (lk : String → Option MaterialData) (n : String) : UnitBase :=
  match lk n with
  | some m => m.unit
  | none => ⟨Dimension.count, 1⟩

/-- The value a successfully regularized ingredient carries (0 on failure;
only used where success is known). -/
def regValue (lk : String → Option MaterialData) (i : IngredientData) : ℚ :=
  match regularize_ingredient i lk with
  | Except.ok j => j.quantity.value
  | Except.error _ => 0

/-- All ingredients of all recipes, in processing order. -/
def allIngredients (recipes : List RecipeData) : List IngredientData :=
  (recipes.map (fun r => r.ingredients)).flatten

/-- Total stated value of the entries named `n`. -/
def valSum (n : String) (l : List IngredientData) : ℚ :=
  ((filterName n l).map (fun i => i.quantity.value)).sum

/-- An entry whose item is catalogued and whose unit is that material's
canonical unit. -/
def CanonEntry (lk : String → Option MaterialData) (e : IngredientData) : Prop :=
  ∃ m, lk e.item = some m ∧ e.quantity.unit = m.unit

/-- Pointwise relation produced by `load_ingredient` on a catalog hit. -/
def LoadRel (lk : String → Option MaterialData) (i : IngredientData)
    (g : Ingredient) : Prop :=
  ∃ m, lk i.item = some m ∧ g.material = m ∧
    Ingredient.init i.quantity m = Except.ok g.quantity

/-- Value of the cart at a key, zero when absent. -/
def cartVal (n : String) (c : List (String × Quantity)) : ℚ :=
  match cart_get c n with
  | some q => q.value
  | none => 0

/-- Total value contributed to a name by a list of loaded ingredients. -/
def gsValSum (n : String) (gs : List Ingredient) : ℚ :=
  ((gs.filter (fun g => g.material.name = n)).map (fun g => g.quantity.value)).sum

/-- Recipe A of the spec's merge scenario: 200 g of Flour. -/
def recipeA : RecipeData := ⟨"A", "s", [⟨⟨200, gram⟩, "Flour"⟩], []⟩

/-- Recipe B of the spec's merge scenario: 1 cup of Flour. -/
def recipeB : RecipeData := ⟨"B", "s", [⟨⟨1, cup⟩, "Flour"⟩], []⟩

/-- Unfolding of `regularize_ingredient` on a catalog hit. -/
lemma regularize_ingredient_matched (ing : IngredientData)
    (km : String → Option MaterialData) (material : MaterialData)
    (h : km ing.item = some material) :
    regularize_ingredient ing km =
      (if ing.quantity.unit.dim = material.unit.dim then
        (ing.quantity.to material.unit).map (fun q => ⟨q, ing.item⟩)
      else if ing.quantity.unit.dim = Dimension.mass then
        match material.mass_per_unit with
        | none => Except.error QuantityError.typeError
        | some factor =>
          (ing.quantity.divTo factor material.unit).map (fun q => ⟨q, ing.item⟩)
      else if ing.quantity.unit.dim = Dimension.volume then
        match material.volume_per_unit with
        | none => Except.error QuantityError.typeError
        | some factor =>
          (ing.quantity.divTo factor material.unit).map (fun q => ⟨q, ing.item⟩)
      else
        Except.error
          (QuantityError.valueError ing.item ing.quantity material.unit)) := by
  unfold regularize_ingredient
  rw [h]

/-- `regularize_ingredient` passes an uncatalogued ingredient through. -/
lemma regularize_ingredient_unmatched (ing : IngredientData)
    (km : String → Option MaterialData) (h : km ing.item = none) :
    regularize_ingredient ing km = Except.ok ing := by
  unfold regularize_ingredient
  rw [h]

/-- The exponent cancellation underlying the cross-dimension division:
`d * t / d` has the exponents of `t`. -/
lemma Dimension.vec_cancel (d t : Dimension) :
    (d.vec.add t.vec).sub d.vec = t.vec := by
  cases d <;> cases t <;> rfl

/-- When the ratio's numerator matches the quantity's dimension and its
denominator the target's, `divTo` succeeds and computes the rescaled value. -/
lemma Quantity.divTo_ok (q : Quantity) (r : Ratio) (target : UnitBase)
    (hnum : r.num.dim = q.unit.dim) (hden : r.den.dim = target.dim) :
    q.divTo r target =
      Except.ok
        ⟨q.value * q.unit.factor * r.den.factor / (r.value * r.num.factor) / target.factor,
          target⟩ := by
  unfold Quantity.divTo
  rw [hnum, hden, if_pos (Dimension.vec_cancel q.unit.dim target.dim)]

/-- C1: when an ingredient's quantity has a different dimension from its
material's canonical unit and the matching conversion factor is present,
`regularize_ingredient` succeeds and returns the quantity divided by the
factor, converted to the canonical unit — on the spec's example, 1 cup of
Flour against factor `0.002 cup / g` becomes 500 g. -/
theorem regularize_cross_dimension_divides
    (ing : IngredientData) (km : String → Option MaterialData)
    (material : MaterialData) (factor : Ratio)
    (hlk : km ing.item = some material)
    (hne : ing.quantity.unit.dim ≠ material.unit.dim)
    (hnum : factor.num.dim = ing.quantity.unit.dim)
    (hden : factor.den.dim = material.unit.dim) :
    (ing.quantity.unit.dim = Dimension.mass → material.mass_per_unit = some factor →
      regularize_ingredient ing km =
        Except.ok
          ⟨⟨ing.quantity.value * ing.quantity.unit.factor * factor.den.factor /
              (factor.value * factor.num.factor) / material.unit.factor,
            material.unit⟩, ing.item⟩) ∧
    (ing.quantity.unit.dim = Dimension.volume → material.volume_per_unit = some factor →
      regularize_ingredient ing km =
        Except.ok
          ⟨⟨ing.quantity.value * ing.quantity.unit.factor * factor.den.factor /
              (factor.value * factor.num.factor) / material.unit.factor,
            material.unit⟩, ing.item⟩) := by
  constructor
  · intro hd hfac
    rw [regularize_ingredient_matched _ _ _ hlk, if_neg hne, if_pos hd, hfac]
    show (ing.quantity.divTo factor material.unit).map
        (fun q => (⟨q, ing.item⟩ : IngredientData)) = _
    rw [Quantity.divTo_ok _ _ _ hnum hden]
    rfl
  · intro hd hfac
    have hm : ¬ ing.quantity.unit.dim = Dimension.mass := by
      rw [hd]; decide
    rw [regularize_ingredient_matched _ _ _ hlk, if_neg hne, if_neg hm, if_pos hd, hfac]
    show (ing.quantity.divTo factor material.unit).map
        (fun q => (⟨q, ing.item⟩ : IngredientData)) = _
    rw [Quantity.divTo_ok _ _ _ hnum hden]
    rfl

/-- Witness for C1: the Flour example, 1 cup → 500 g. -/
theorem regularize_cross_dimension_divides_witness :
    regularize_ingredient ⟨⟨1, cup⟩, "Flour"⟩ (material_lookup [flour]) =
      Except.ok ⟨⟨500, gram⟩, "Flour"⟩ := by
  have h := (regularize_cross_dimension_divides ⟨⟨1, cup⟩, "Flour"⟩
      (material_lookup [flour]) flour ⟨1/500, cup, gram⟩ rfl (by decide) rfl rfl).2
      rfl rfl
  rw [h]
  norm_num [flour, gram, cup]

/-- C5: an ingredient whose quantity is a plain count, matched against a
material with a mass or volume canonical unit and lacking the needed
factor path, makes `regularize_ingredient` raise the `ValueError` that
names the item, the as-stated quantity and the preferred unit. -/
theorem regularize_unmatched_dimension_value_error
    (ing : IngredientData) (km : String → Option MaterialData)
    (material : MaterialData)
    (hlk : km ing.item = some material)
    (hne : ing.quantity.unit.dim ≠ material.unit.dim)
    (hm : ing.quantity.unit.dim ≠ Dimension.mass)
    (hv : ing.quantity.unit.dim ≠ Dimension.volume) :
    regularize_ingredient ing km =
      Except.error (QuantityError.valueError ing.item ing.quantity material.unit) := by
  rw [regularize_ingredient_matched _ _ _ hlk, if_neg hne, if_neg hm, if_neg hv]

/-- Witness for C5: 3 count of Mystery (canonical unit gram) raises the
named `ValueError`. -/
theorem regularize_unmatched_dimension_value_error_witness :
    regularize_ingredient ⟨⟨3, countUnit⟩, "Flour"⟩ (material_lookup [flour]) =
      Except.error (QuantityError.valueError "Flour" ⟨3, countUnit⟩ gram) :=
  regularize_unmatched_dimension_value_error ⟨⟨3, countUnit⟩, "Flour"⟩
    (material_lookup [flour]) flour rfl (by decide) (by decide) (by decide)

/-- C8: regularizing an ingredient whose quantity is already in its
material's canonical unit returns the ingredient unchanged —
regularization is idempotent on canonical input. -/
theorem regularize_canonical_ingredient_identity
    (ing : IngredientData) (km : String → Option MaterialData)
    (material : MaterialData)
    (hlk : km ing.item = some material)
    (hu : ing.quantity.unit = material.unit)
    (hf : material.unit.factor ≠ 0) :
    regularize_ingredient ing km = Except.ok ing := by
  obtain ⟨⟨v, u⟩, it⟩ := ing
  simp only at hu
  rw [regularize_ingredient_matched _ _ _ hlk, if_pos (by rw [hu])]
  unfold Quantity.to
  rw [if_pos (by rw [hu])]
  subst hu
  rw [mul_div_cancel_right₀ v hf]
  rfl

/-- Witness for C8: 200 g of Flour is returned unchanged. -/
theorem regularize_canonical_ingredient_identity_witness :
    regularize_ingredient ⟨⟨2, cup⟩, "Rice"⟩ (material_lookup [rice]) =
      Except.ok ⟨⟨2, cup⟩, "Rice"⟩ :=
  regularize_canonical_ingredient_identity ⟨⟨2, cup⟩, "Rice"⟩
    (material_lookup [rice]) rice rfl rfl (by norm_num [rice, cup])

/-- A mapped `Except` is an error exactly when the original is. -/
lemma Except.map_eq_error {a b : Type} (f : a → b) (x : Except QuantityError a)
    (e : QuantityError) (h : x.map f = Except.error e) : x = Except.error e := by
  cases x with
  | ok v => simp [Except.map] at h
  | error e₁ => simpa [Except.map] using h

/-- `Quantity.to` only ever raises `UnitConversionError`. -/
lemma Quantity.to_error (q : Quantity) (u : UnitBase) (e : QuantityError)
    (h : q.to u = Except.error e) : e = QuantityError.unitConversionError := by
  unfold Quantity.to at h
  split at h
  · cases h
  · exact (Except.error.inj h).symm

/-- `Quantity.divTo` only ever raises `UnitConversionError`. -/
lemma Quantity.divTo_error (q : Quantity) (r : Ratio) (t : UnitBase)
    (e : QuantityError) (h : q.divTo r t = Except.error e) :
    e = QuantityError.unitConversionError := by
  unfold Quantity.divTo at h
  split at h
  · cases h
  · exact (Except.error.inj h).symm

/-- C9: with a mass- or volume-dimensioned quantity against a material of a
different dimension whose corresponding factor is `None`, the code reaches
the division and raises `TypeError` (dividing a quantity by `None`), never
the guarded `ValueError`; the `ValueError` branch is reached only from a
count-dimensioned quantity. -/
theorem regularize_none_factor_type_error
    (ing : IngredientData) (km : String → Option MaterialData)
    (material : MaterialData)
    (hlk : km ing.item = some material)
    (hne : ing.quantity.unit.dim ≠ material.unit.dim) :
    (ing.quantity.unit.dim = Dimension.mass → material.mass_per_unit = none →
      regularize_ingredient ing km = Except.error QuantityError.typeError) ∧
    (ing.quantity.unit.dim = Dimension.volume → material.volume_per_unit = none →
      regularize_ingredient ing km = Except.error QuantityError.typeError) ∧
    (∀ (ing₁ : IngredientData) (km₁ : String → Option MaterialData)
        (material₁ : MaterialData) (a : String) (q : Quantity) (u : UnitBase),
      km₁ ing₁.item = some material₁ →
      regularize_ingredient ing₁ km₁ = Except.error (QuantityError.valueError a q u) →
      ing₁.quantity.unit.dim ≠ Dimension.mass ∧ ing₁.quantity.unit.dim ≠ Dimension.volume) := by
  refine ⟨?_, ?_, ?_⟩
  · intro hd hfac
    rw [regularize_ingredient_matched _ _ _ hlk, if_neg hne, if_pos hd, hfac]
  · intro hd hfac
    have hm : ¬ ing.quantity.unit.dim = Dimension.mass := by
      rw [hd]; decide
    rw [regularize_ingredient_matched _ _ _ hlk, if_neg hne, if_neg hm, if_pos hd, hfac]
  · intro ing₁ km₁ material₁ a q u hlk₁ h
    rw [regularize_ingredient_matched _ _ _ hlk₁] at h
    split_ifs at h with h1 h2 h3
    · exact QuantityError.noConfusion
        (Quantity.to_error _ _ _ (Except.map_eq_error _ _ _ h))
    · cases hmp : material₁.mass_per_unit with
      | none =>
        rw [hmp] at h
        exact QuantityError.noConfusion (Except.error.inj h)
      | some factor =>
        rw [hmp] at h
        have h₁ : (ing₁.quantity.divTo factor material₁.unit).map
            (fun qq => (⟨qq, ing₁.item⟩ : IngredientData)) =
            Except.error (QuantityError.valueError a q u) := h
        exact QuantityError.noConfusion
          (Quantity.divTo_error _ _ _ _ (Except.map_eq_error _ _ _ h₁))
    · cases hvp : material₁.volume_per_unit with
      | none =>
        rw [hvp] at h
        exact QuantityError.noConfusion (Except.error.inj h)
      | some factor =>
        rw [hvp] at h
        have h₁ : (ing₁.quantity.divTo factor material₁.unit).map
            (fun qq => (⟨qq, ing₁.item⟩ : IngredientData)) =
            Except.error (QuantityError.valueError a q u) := h
        exact QuantityError.noConfusion
          (Quantity.divTo_error _ _ _ _ (Except.map_eq_error _ _ _ h₁))
    · exact ⟨h2, h3⟩

/-- Witness for C9: 2 cups of Mystery (no volume factor) raises
`TypeError`; 3 count of Mystery raises the `ValueError`. -/
theorem regularize_none_factor_type_error_witness :
    regularize_ingredient ⟨⟨3, gram⟩, "Water"⟩
        (material_lookup [⟨"Water", cup, none, none⟩]) =
      Except.error QuantityError.typeError ∧
    (QuantityError.typeError : QuantityError) ≠
      QuantityError.valueError "Water" ⟨3, gram⟩ cup := by
  constructor
  · exact (regularize_none_factor_type_error ⟨⟨3, gram⟩, "Water"⟩
      (material_lookup [⟨"Water", cup, none, none⟩]) ⟨"Water", cup, none, none⟩
      rfl (by decide)).1 rfl rfl
  · intro h
    cases h

/-- The merge fold equals `mergeRun` at every intermediate state. -/
lemma foldlM_mergeStep_eq_mergeRun (s : List IngredientData) :
    ∀ (done : List IngredientData) (c : IngredientData),
      List.foldlM mergeStep (done ++ [c]) s = mergeRun done (some c) s := by
  induction s with
  | nil => intro done c; rfl
  | cons x rest ih =>
    intro done c
    rw [List.foldlM_cons]
    have hstep : mergeStep (done ++ [c]) x =
        (if x.item = c.item then
          (x.quantity.add c.quantity).map (fun q => done ++ [⟨q, x.item⟩])
        else Except.ok ((done ++ [c]) ++ [x])) := by
      unfold mergeStep
      rw [List.getLast?_concat, List.dropLast_concat]
    by_cases hx : x.item = c.item
    · rw [hstep, if_pos hx]
      cases hadd : x.quantity.add c.quantity with
      | ok q =>
        show List.foldlM mergeStep (done ++ [⟨q, x.item⟩]) rest = _
        rw [ih done ⟨q, x.item⟩]
        conv_rhs => rw [mergeRun]
        rw [if_pos hx, hadd]
      | error e =>
        show Except.error e = _
        conv_rhs => rw [mergeRun]
        rw [if_pos hx, hadd]
    · rw [hstep, if_neg hx]
      show List.foldlM mergeStep ((done ++ [c]) ++ [x]) rest = _
      rw [ih (done ++ [c]) x]
      conv_rhs => rw [mergeRun]
      rw [if_neg hx]

/-- The merge fold from the empty accumulator equals `mergeRun` from the
empty start state. -/
lemma foldlM_mergeStep_eq_mergeRun_nil (s : List IngredientData) :
    List.foldlM mergeStep [] s = mergeRun [] none s := by
  cases s with
  | nil => rfl
  | cons x rest =>
    rw [List.foldlM_cons]
    show List.foldlM mergeStep ([] ++ [x]) rest = _
    rw [foldlM_mergeStep_eq_mergeRun rest [] x]
    rfl

/-- `mergeRun` at the end of input emits the pending group. -/
lemma mergeRun_some_nil (done : List IngredientData) (c : IngredientData) :
    mergeRun done (some c) [] = Except.ok (done ++ [c]) := rfl

/-- `mergeRun` step on a matching name: the pending group absorbs the entry. -/
lemma mergeRun_some_cons_eq (done : List IngredientData) (c x : IngredientData)
    (rest : List IngredientData) (hx : x.item = c.item) :
    mergeRun done (some c) (x :: rest) =
      (match x.quantity.add c.quantity with
      | Except.ok q => mergeRun done (some ⟨q, x.item⟩) rest
      | Except.error e => Except.error e) := by
  rw [mergeRun, if_pos hx]

/-- `mergeRun` step on a new name: the pending group is emitted. -/
lemma mergeRun_some_cons_ne (done : List IngredientData) (c x : IngredientData)
    (rest : List IngredientData) (hx : x.item ≠ c.item) :
    mergeRun done (some c) (x :: rest) = mergeRun (done ++ [c]) (some x) rest := by
  rw [mergeRun, if_neg hx]

/-- Strings with equal character data are equal. -/
lemma string_eq_of_data_eq (s t : String) (h : s.data = t.data) : s = t :=
  congrArg String.mk h

/-- Non-strict item order plus distinct names gives strict order. -/
lemma itemLt_of_itemLe_of_ne {a b : IngredientData} (h : itemLe a b)
    (hne : a.item ≠ b.item) : itemLt a b :=
  lt_of_le_of_ne h (fun hd => hne (string_eq_of_data_eq _ _ hd))

/-- Sortedness invariant of the merge: from sorted input, every emitted
name is strictly below the surviving input names, the output is strictly
sorted, and every output quantity mentioned keeps a name of the input. -/
lemma mergeRun_sorted (s : List IngredientData) :
    ∀ (done : List IngredientData) (c : IngredientData) (out : List IngredientData),
      List.Pairwise itemLe (c :: s) →
      List.Pairwise itemLt done →
      (∀ d ∈ done, itemLt d c) →
      mergeRun done (some c) s = Except.ok out →
      List.Pairwise itemLt out := by
  induction s with
  | nil =>
    intro done c out _ hd hdc hrun
    rw [mergeRun_some_nil] at hrun
    obtain rfl := Except.ok.inj hrun
    rw [List.pairwise_append]
    refine ⟨hd, List.pairwise_singleton _ _, ?_⟩
    intro d hdm e he
    rw [List.mem_singleton] at he
    subst he
    exact hdc d hdm
  | cons x rest ih =>
    intro done c out hs hd hdc hrun
    have hcx : itemLe c x := (List.pairwise_cons.mp hs).1 x (by simp)
    have hs₁ : List.Pairwise itemLe (x :: rest) := (List.pairwise_cons.mp hs).2
    by_cases hx : x.item = c.item
    · rw [mergeRun_some_cons_eq _ _ _ _ hx] at hrun
      cases hadd : x.quantity.add c.quantity with
      | error e => rw [hadd] at hrun; cases hrun
      | ok q =>
        rw [hadd] at hrun
        refine ih done ⟨q, x.item⟩ out ?_ hd ?_ hrun
        · rw [List.pairwise_cons]
          exact ⟨fun y hy => (List.pairwise_cons.mp hs₁).1 y hy,
            (List.pairwise_cons.mp hs₁).2⟩
        · intro d hdm
          exact lt_of_lt_of_le (hdc d hdm) hcx
    · rw [mergeRun_some_cons_ne _ _ _ _ hx] at hrun
      refine ih (done ++ [c]) x out hs₁ ?_ ?_ hrun
      · rw [List.pairwise_append]
        refine ⟨hd, List.pairwise_singleton _ _, ?_⟩
        intro d hdm e he
        rw [List.mem_singleton] at he
        subst he
        exact hdc d hdm
      · intro d hdm
        rcases List.mem_append.mp hdm with h₁ | h₂
        · exact lt_of_lt_of_le (hdc d h₁) hcx
        · rw [List.mem_singleton] at h₂
          subst h₂
          exact itemLt_of_itemLe_of_ne hcx (fun hh => hx hh.symm)

/-- A successful `add_recipe_to_ingredients` is strictly sorted by item
name. -/
lemma add_recipe_pairwise_lt (ings : List IngredientData) (r : RecipeData)
    (out : List IngredientData)
    (h : add_recipe_to_ingredients ings r = Except.ok out) :
    List.Pairwise itemLt out := by
  unfold add_recipe_to_ingredients at h
  have hsort : List.Pairwise itemLe (List.insertionSort itemLe (ings ++ r.ingredients)) :=
    List.sorted_insertionSort itemLe _
  revert hsort h
  generalize List.insertionSort itemLe (ings ++ r.ingredients) = s
  intro h hsort
  cases s with
  | nil =>
    obtain rfl := Except.ok.inj h
    exact List.Pairwise.nil
  | cons x rest =>
    rw [foldlM_mergeStep_eq_mergeRun_nil] at h
    exact mergeRun_sorted rest [] x out hsort List.Pairwise.nil (by simp) h

/-- On input whose names are strictly ascending and disjoint from the
pending group, the merge is the identity. -/
lemma mergeRun_id (s : List IngredientData) :
    ∀ (done : List IngredientData) (c : IngredientData),
      ((c :: s).map (fun i => i.item)).Nodup →
      mergeRun done (some c) s = Except.ok (done ++ c :: s) := by
  induction s with
  | nil => intro done c _; rw [mergeRun_some_nil]
  | cons x rest ih =>
    intro done c hnd
    rw [List.map_cons, List.nodup_cons] at hnd
    have hx : x.item ≠ c.item := by
      intro hh
      exact hnd.1 (by simp [hh])
    rw [mergeRun_some_cons_ne _ _ _ _ hx, ih (done ++ [c]) x hnd.2]
    simp

/-- `filterName` distributes over append. -/
lemma filterName_append (n : String) (l₁ l₂ : List IngredientData) :
    filterName n (l₁ ++ l₂) = filterName n l₁ ++ filterName n l₂ := by
  simp [filterName]

/-- `filterName` keeps a matching head. -/
lemma filterName_cons_of_eq (n : String) (x : IngredientData)
    (l : List IngredientData) (hx : x.item = n) :
    filterName n (x :: l) = x :: filterName n l := by
  simp [filterName, List.filter_cons, hx]

/-- `filterName` drops a non-matching head. -/
lemma filterName_cons_of_ne (n : String) (x : IngredientData)
    (l : List IngredientData) (hx : x.item ≠ n) :
    filterName n (x :: l) = filterName n l := by
  simp [filterName, List.filter_cons, hx]

/-- Per-name invariant of the merge: for sorted input, the output entries
named `n` are obtained by folding the group of input entries named `n`
with astropy `+`; in particular names are preserved. -/
lemma mergeRun_filterName (s : List IngredientData) :
    ∀ (done : List IngredientData) (c : IngredientData)
      (out : List IngredientData) (n : String),
      (filterName n (done ++ c :: s)).length ≤ 1 →
      mergeRun done (some c) s = Except.ok out →
      filterName n out = filterName n (done ++ c :: s) := by
  induction s with
  | nil =>
    intro done c out n _ hrun
    rw [mergeRun_some_nil] at hrun
    obtain rfl := Except.ok.inj hrun
    rfl
  | cons x rest ih =>
    intro done c out n hlen hrun
    by_cases hx : x.item = c.item
    · by_cases hcn : c.item = n
      · exfalso
        have hxn : x.item = n := hx.trans hcn
        rw [filterName_append, filterName_cons_of_eq _ _ _ hcn,
          filterName_cons_of_eq _ _ _ hxn] at hlen
        simp at hlen
        omega
      · rw [mergeRun_some_cons_eq _ _ _ _ hx] at hrun
        cases hadd : x.quantity.add c.quantity with
        | error e => rw [hadd] at hrun; cases hrun
        | ok q =>
          rw [hadd] at hrun
          have hxn : x.item ≠ n := fun hh => hcn (hx.symm.trans hh)
          have heq : filterName n (done ++ (⟨q, x.item⟩ : IngredientData) :: rest) =
              filterName n (done ++ c :: x :: rest) := by
            rw [filterName_append, filterName_append,
              filterName_cons_of_ne n ⟨q, x.item⟩ rest hxn,
              filterName_cons_of_ne n c (x :: rest) hcn,
              filterName_cons_of_ne n x rest hxn]
          rw [ih done ⟨q, x.item⟩ out n (by rw [heq]; exact hlen) hrun, heq]
    · rw [mergeRun_some_cons_ne _ _ _ _ hx] at hrun
      have heq : filterName n ((done ++ [c]) ++ x :: rest) =
          filterName n (done ++ c :: x :: rest) := by
        rw [List.append_assoc]
        rfl
      rw [ih (done ++ [c]) x out n (by rw [heq]; exact hlen) hrun, heq]

/-- Strictly sorted item names are distinct. -/
lemma nodup_items_of_pairwise_lt (l : List IngredientData)
    (h : List.Pairwise itemLt l) : (l.map (fun i => i.item)).Nodup := by
  have h₂ : List.Pairwise (fun a b : IngredientData => a.item ≠ b.item) l :=
    h.imp (fun hab hh => ne_of_lt hab (congrArg String.data hh))
  exact List.pairwise_map.mpr h₂

/-- Permutation of lists of length at most one is equality. -/
lemma perm_eq_of_length_le_one {l₁ l₂ : List IngredientData} (h : l₁.Perm l₂)
    (hlen : l₂.length ≤ 1) : l₁ = l₂ := by
  cases l₂ with
  | nil => exact List.perm_nil.mp h
  | cons a t =>
    cases t with
    | nil => exact List.perm_singleton.mp h
    | cons b t₂ => simp at hlen

/-- Per-name description of a successful `add_recipe_to_ingredients`: the
entries named `n` fold the stable-sorted group named `n` of the combined
input. -/
lemma add_recipe_filterName (ings : List IngredientData) (r : RecipeData)
    (out : List IngredientData) (n : String)
    (hlen : (filterName n (ings ++ r.ingredients)).length ≤ 1)
    (h : add_recipe_to_ingredients ings r = Except.ok out) :
    filterName n out = filterName n (ings ++ r.ingredients) := by
  unfold add_recipe_to_ingredients at h
  have hfperm : (filterName n (List.insertionSort itemLe (ings ++ r.ingredients))).Perm
      (filterName n (ings ++ r.ingredients)) :=
    (List.perm_insertionSort itemLe (ings ++ r.ingredients)).filter _
  have hslen : (filterName n (List.insertionSort itemLe (ings ++ r.ingredients))).length ≤ 1 := by
    rw [hfperm.length_eq]
    exact hlen
  revert h hfperm hslen
  generalize List.insertionSort itemLe (ings ++ r.ingredients) = s
  intro h hfperm hslen
  cases s with
  | nil =>
    obtain rfl := Except.ok.inj h
    exact (List.perm_nil.mp hfperm.symm).symm
  | cons x rest =>
    rw [foldlM_mergeStep_eq_mergeRun_nil] at h
    have hout := mergeRun_filterName rest [] x out n hslen h
    rw [hout]
    exact perm_eq_of_length_le_one hfperm hlen

/-- Generic successful-fold decomposition: a successful `foldlM` over
`l₁ ++ l₂` passes through a successful intermediate state. -/
lemma foldlM_ok_chain {β : Type} (f : List IngredientData → β →
    Except QuantityError (List IngredientData)) (l : List β) :
    ∀ (acc out : List IngredientData), List.foldlM f acc l = Except.ok out →
      out = acc ∨ ∃ a b, f a b = Except.ok out := by
  induction l with
  | nil =>
    intro acc out h
    exact Or.inl (Except.ok.inj h).symm
  | cons b rest ih =>
    intro acc out h
    rw [List.foldlM_cons] at h
    cases hf : f acc b with
    | error e =>
      rw [hf] at h
      exact Except.noConfusion h
    | ok acc₁ =>
      rw [hf] at h
      have h₂ : List.foldlM f acc₁ rest = Except.ok out := h
      rcases ih acc₁ out h₂ with rfl | hex
      · exact Or.inr ⟨acc, b, hf⟩
      · exact Or.inr hex

/-- Unfolding one successful step of the `create_grocery_list` fold. -/
lemma create_step_ok (mats : List MaterialData) (a : List IngredientData)
    (r : RecipeData) (out : List IngredientData)
    (h : (do
        let regularized ← regularize_recipe r (material_lookup mats)
        add_recipe_to_ingredients a regularized) = Except.ok out) :
    ∃ rr, regularize_recipe r (material_lookup mats) = Except.ok rr ∧
      add_recipe_to_ingredients a rr = Except.ok out := by
  cases hreg : regularize_recipe r (material_lookup mats) with
  | error e =>
    rw [hreg] at h
    exact Except.noConfusion h
  | ok rr =>
    rw [hreg] at h
    exact ⟨rr, rfl, h⟩

/-- C3: the ingredient list produced by a successful
`add_recipe_to_ingredients` has pairwise distinct item names. -/
theorem merge_output_item_names_distinct :
    (∀ (ings : List IngredientData) (r : RecipeData) (out : List IngredientData),
      add_recipe_to_ingredients ings r = Except.ok out →
      (out.map (fun i => i.item)).Nodup) ∧
    (∀ (recipes : List RecipeData) (mats : List MaterialData)
        (out : List IngredientData),
      create_grocery_list recipes mats = Except.ok out →
      (out.map (fun i => i.item)).Nodup) := by
  have hm : ∀ (ings : List IngredientData) (r : RecipeData) (out : List IngredientData),
      add_recipe_to_ingredients ings r = Except.ok out →
      (out.map (fun i => i.item)).Nodup :=
    fun ings r out h => nodup_items_of_pairwise_lt out (add_recipe_pairwise_lt ings r out h)
  refine ⟨hm, ?_⟩
  intro recipes mats out h
  unfold create_grocery_list at h
  rcases foldlM_ok_chain _ recipes [] out h with rfl | ⟨a, b, hf⟩
  · simp
  · rcases create_step_ok mats a b out hf with ⟨rr, _, hadd⟩
    exact hm a rr out hadd

/-- Witness for C3 on a concrete two-recipe merge. -/
theorem merge_output_item_names_distinct_witness :
    add_recipe_to_ingredients []
        ⟨"r", "s", [⟨⟨1, gram⟩, "AAA"⟩, ⟨⟨2, gram⟩, "AAA"⟩, ⟨⟨3, gram⟩, "AAA"⟩], []⟩ =
      Except.ok [⟨⟨6, gram⟩, "AAA"⟩] ∧
    (([⟨⟨6, gram⟩, "AAA"⟩] : List IngredientData).map (fun i => i.item)).Nodup := by
  have heval : add_recipe_to_ingredients []
      ⟨"r", "s", [⟨⟨1, gram⟩, "AAA"⟩, ⟨⟨2, gram⟩, "AAA"⟩, ⟨⟨3, gram⟩, "AAA"⟩], []⟩ =
      Except.ok [⟨⟨6, gram⟩, "AAA"⟩] := by
    norm_num [add_recipe_to_ingredients, List.insertionSort, List.orderedInsert,
      itemLe, mergeStep, Quantity.add, gram, List.foldlM, Except.map,
      Bind.bind, Except.bind, Pure.pure, Except.pure]
  exact ⟨heval, merge_output_item_names_distinct.1 _ _ _ heval⟩

/-- C7: a successful `add_recipe_to_ingredients` is sorted by item name,
and for entry names that occur at most once in the combined input, the
multiset of entries is preserved. -/
theorem merge_orders_by_item_name :
    (∀ (r : RecipeData), ((r.ingredients.map (fun i => i.item)).Nodup) →
      add_recipe_to_ingredients [] r =
        Except.ok (List.insertionSort itemLe r.ingredients) ∧
      (List.insertionSort itemLe r.ingredients).Perm r.ingredients ∧
      List.Pairwise itemLe (List.insertionSort itemLe r.ingredients)) ∧
    (∀ (ings : List IngredientData) (r : RecipeData) (out : List IngredientData),
      add_recipe_to_ingredients ings r = Except.ok out →
      List.Pairwise itemLe out) := by
  constructor
  · intro r hnd
    have hperm : (List.insertionSort itemLe r.ingredients).Perm r.ingredients :=
      List.perm_insertionSort _ _
    have hnds : ((List.insertionSort itemLe r.ingredients).map (fun i => i.item)).Nodup := by
      have hmp : ((List.insertionSort itemLe r.ingredients).map (fun i => i.item)).Perm
          (r.ingredients.map (fun i => i.item)) := hperm.map _
      exact hmp.nodup_iff.mpr hnd
    refine ⟨?_, hperm, List.sorted_insertionSort itemLe _⟩
    unfold add_recipe_to_ingredients
    rw [List.nil_append]
    revert hnds
    generalize List.insertionSort itemLe r.ingredients = s
    intro hnds
    cases s with
    | nil => rfl
    | cons x rest =>
      rw [foldlM_mergeStep_eq_mergeRun_nil]
      have hid := mergeRun_id rest [] x hnds
      show mergeRun [] (some x) rest = Except.ok (x :: rest)
      simpa using hid
  · intro ings r out h
    exact (add_recipe_pairwise_lt ings r out h).imp (fun hab => le_of_lt hab)

/-- Witness for C7 on a concrete merge with distinct names. -/
theorem merge_orders_by_item_name_witness :
    add_recipe_to_ingredients []
        ⟨"r", "s", [⟨⟨1, gram⟩, "Flour"⟩, ⟨⟨2, gram⟩, "Butter"⟩], []⟩ =
      Except.ok [⟨⟨2, gram⟩, "Butter"⟩, ⟨⟨1, gram⟩, "Flour"⟩] := by
  have h := (merge_orders_by_item_name.1
      ⟨"r", "s", [⟨⟨1, gram⟩, "Flour"⟩, ⟨⟨2, gram⟩, "Butter"⟩], []⟩ (by decide)).1
  rw [h]
  norm_num [List.insertionSort, List.orderedInsert, itemLe]
  decide

/-- C2 (counterexample): merging 200 g of Flour with an incoming 1 kg of
Flour yields 6/5 kilogram — the sum carries the SECOND (incoming) entry's
unit, not the first accumulated entry's unit (1200 g), refuting the claim
as stated. -/
theorem merge_sum_unit_counterexample :
    add_recipe_to_ingredients [⟨⟨200, gram⟩, "Flour"⟩]
        ⟨"B", "src", [⟨⟨1, kilogram⟩, "Flour"⟩], []⟩ =
      Except.ok [⟨⟨6/5, kilogram⟩, "Flour"⟩] ∧
    add_recipe_to_ingredients [⟨⟨200, gram⟩, "Flour"⟩]
        ⟨"B", "src", [⟨⟨1, kilogram⟩, "Flour"⟩], []⟩ ≠
      Except.ok [⟨⟨1200, gram⟩, "Flour"⟩] ∧
    (⟨⟨6/5, kilogram⟩, "Flour"⟩ : IngredientData) ≠ ⟨⟨1200, gram⟩, "Flour"⟩ := by
  have heval : add_recipe_to_ingredients [⟨⟨200, gram⟩, "Flour"⟩]
      ⟨"B", "src", [⟨⟨1, kilogram⟩, "Flour"⟩], []⟩ =
      Except.ok [⟨⟨6/5, kilogram⟩, "Flour"⟩] := by
    norm_num [add_recipe_to_ingredients, List.insertionSort, List.orderedInsert,
      itemLe, mergeStep, Quantity.add, gram, kilogram, List.foldlM, Except.map,
      Bind.bind, Except.bind, Pure.pure, Except.pure]
  refine ⟨heval, ?_, ?_⟩
  · rw [heval]
    intro hcontra
    have hlist := Except.ok.inj hcontra
    have hhead : (⟨⟨6/5, kilogram⟩, "Flour"⟩ : IngredientData) = ⟨⟨1200, gram⟩, "Flour"⟩ := by
      injection hlist
    have hunit : kilogram = gram := congrArg (fun i : IngredientData => i.quantity.unit) hhead
    have : (1000 : ℚ) = 1 := congrArg (fun u : UnitBase => u.factor) hunit
    norm_num at this
  · intro hcontra
    have hunit : kilogram = gram := congrArg (fun i : IngredientData => i.quantity.unit) hcontra
    have : (1000 : ℚ) = 1 := congrArg (fun u : UnitBase => u.factor) hunit
    norm_num at this

/-- C2 (amended): merging two same-named, same-dimension entries yields a
single entry whose quantity is the sum expressed in the second (incoming)
entry's unit: the lambda computes `ingredient.quantity +
merged_ingredients[-1].quantity` and astropy `+` keeps the left operand's
unit. -/
theorem merge_same_item_sums_in_second_unit
    (name source : String) (instr : List String) (a b : IngredientData)
    (hitem : a.item = b.item)
    (hdim : a.quantity.unit.dim = b.quantity.unit.dim) :
    add_recipe_to_ingredients [a] ⟨name, source, [b], instr⟩ =
      Except.ok [⟨⟨b.quantity.value + a.quantity.value *
          (a.quantity.unit.factor / b.quantity.unit.factor),
        b.quantity.unit⟩, b.item⟩] := by
  unfold add_recipe_to_ingredients
  have hab : itemLe a b := le_of_eq (congrArg String.data hitem)
  have hsort : List.insertionSort itemLe ([a] ++ [b]) = [a, b] := by
    show List.insertionSort itemLe [a, b] = [a, b]
    simp [List.insertionSort, List.orderedInsert, hab]
  rw [hsort, foldlM_mergeStep_eq_mergeRun_nil]
  show mergeRun [] (some a) [b] = _
  rw [mergeRun_some_cons_eq [] a b [] hitem.symm]
  have hadd : b.quantity.add a.quantity =
      Except.ok ⟨b.quantity.value + a.quantity.value *
        (a.quantity.unit.factor / b.quantity.unit.factor), b.quantity.unit⟩ := by
    unfold Quantity.add
    rw [if_pos hdim]
  rw [hadd]
  rfl

/-- Witness for amended C2: 200 g then 1 kg of Flour merges to 6/5 kg. -/
theorem merge_same_item_sums_in_second_unit_witness :
    add_recipe_to_ingredients [⟨⟨200, gram⟩, "Flour"⟩]
        ⟨"B", "other", [⟨⟨1, kilogram⟩, "Flour"⟩], []⟩ =
      Except.ok [⟨⟨6/5, kilogram⟩, "Flour"⟩] := by
  have h := merge_same_item_sums_in_second_unit "B" "other" []
    ⟨⟨200, gram⟩, "Flour"⟩ ⟨⟨1, kilogram⟩, "Flour"⟩ rfl rfl
  rw [h]
  norm_num [gram, kilogram]

/-- A mapped `Except` is `ok` exactly when the original is. -/
lemma Except.map_eq_ok {a b : Type} (f : a → b) (x : Except QuantityError a)
    (y : b) (h : x.map f = Except.ok y) : ∃ v, x = Except.ok v ∧ f v = y := by
  cases x with
  | ok v =>
    refine ⟨v, rfl, ?_⟩
    have := Except.ok.inj h
    exact this
  | error e => exact Except.noConfusion h

/-- A successful `foldlM` succeeded on every element it consumed. -/
lemma foldlM_ok_every {β : Type} (f : List IngredientData → β →
    Except QuantityError (List IngredientData)) (l : List β) :
    ∀ (acc out : List IngredientData), List.foldlM f acc l = Except.ok out →
      ∀ b ∈ l, ∃ a o, f a b = Except.ok o := by
  induction l with
  | nil =>
    intro acc out _ b hb
    cases hb
  | cons x rest ih =>
    intro acc out h b hb
    rw [List.foldlM_cons] at h
    cases hf : f acc x with
    | error e =>
      rw [hf] at h
      exact Except.noConfusion h
    | ok acc₁ =>
      rw [hf] at h
      have h₂ : List.foldlM f acc₁ rest = Except.ok out := h
      rcases List.mem_cons.mp hb with rfl | hmem
      · exact ⟨acc, acc₁, hf⟩
      · exact ih acc₁ out h₂ b hmem

/-- A successful `mapM` succeeded pointwise and maps the list. -/
lemma mapM_ok_every (f : IngredientData → Except QuantityError IngredientData)
    (l : List IngredientData) :
    ∀ (l₂ : List IngredientData), l.mapM f = Except.ok l₂ →
      ∀ a ∈ l, ∃ b, f a = Except.ok b := by
  induction l with
  | nil =>
    intro l₂ _ a ha
    cases ha
  | cons x rest ih =>
    intro l₂ h a ha
    rw [List.mapM_cons] at h
    cases hx : f x with
    | error e =>
      rw [hx] at h
      exact Except.noConfusion h
    | ok b =>
      rw [hx] at h
      cases hrest : rest.mapM f with
      | error e =>
        rw [hrest] at h
        exact Except.noConfusion h
      | ok bs =>
        rcases List.mem_cons.mp ha with rfl | hmem
        · exact ⟨b, hx⟩
        · exact ih bs hrest a hmem

/-- `mapM` propagates the first error: if every earlier element succeeds
and one fails, the whole traversal fails with that error. -/
lemma mapM_first_error (f : IngredientData → Except QuantityError IngredientData)
    (e : QuantityError) :
    ∀ (pre : List IngredientData) (bad : IngredientData) (post : List IngredientData),
      (∀ p ∈ pre, ∃ jp, f p = Except.ok jp) → f bad = Except.error e →
      (pre ++ bad :: post).mapM f = Except.error e := by
  intro pre
  induction pre with
  | nil =>
    intro bad post _ hbad
    rw [List.nil_append, List.mapM_cons, hbad]
    rfl
  | cons p rest ih =>
    intro bad post hpre hbad
    rw [List.cons_append, List.mapM_cons]
    rcases hpre p (by simp) with ⟨jp, hjp⟩
    rw [hjp, ih bad post (fun p₂ hp₂ => hpre p₂ (by simp [hp₂])) hbad]
    rfl

/-- C4: if any ingredient of any recipe fails to regularize (all earlier
ingredients succeeding), `create_grocery_list` aborts with exactly that
error; conversely a successful build regularized every ingredient. -/
theorem build_aborts_on_regularization_error :
    (∀ (recipes : List RecipeData) (mats : List MaterialData)
        (out : List IngredientData),
      create_grocery_list recipes mats = Except.ok out →
      ∀ r ∈ recipes, ∀ i ∈ r.ingredients,
        ∃ j, regularize_ingredient i (material_lookup mats) = Except.ok j) ∧
    (∀ (r : RecipeData) (rest : List RecipeData) (mats : List MaterialData)
        (e : QuantityError),
      regularize_recipe r (material_lookup mats) = Except.error e →
      create_grocery_list (r :: rest) mats = Except.error e) ∧
    (∀ (r : RecipeData) (rest : List RecipeData) (mats : List MaterialData)
        (rr : RecipeData) (e : QuantityError),
      regularize_recipe r (material_lookup mats) = Except.ok rr →
      add_recipe_to_ingredients [] rr = Except.error e →
      create_grocery_list (r :: rest) mats = Except.error e) ∧
    (∀ (km : String → Option MaterialData) (r : RecipeData)
        (pre : List IngredientData) (bad : IngredientData)
        (post : List IngredientData) (e : QuantityError),
      r.ingredients = pre ++ bad :: post →
      (∀ p ∈ pre, ∃ jp, regularize_ingredient p km = Except.ok jp) →
      regularize_ingredient bad km = Except.error e →
      regularize_recipe r km = Except.error e) ∧
    (∀ (recipes : List RecipeData) (mats : List MaterialData),
      (∃ r ∈ recipes, ∃ i ∈ r.ingredients,
        ∀ j, regularize_ingredient i (material_lookup mats) ≠ Except.ok j) →
      ∃ e, create_grocery_list recipes mats = Except.error e) := by
  have ha : ∀ (recipes : List RecipeData) (mats : List MaterialData)
      (out : List IngredientData),
      create_grocery_list recipes mats = Except.ok out →
      ∀ r ∈ recipes, ∀ i ∈ r.ingredients,
        ∃ j, regularize_ingredient i (material_lookup mats) = Except.ok j := by
    intro recipes mats out h r hr i hi
    unfold create_grocery_list at h
    rcases foldlM_ok_every _ recipes [] out h r hr with ⟨a, o, hf⟩
    rcases create_step_ok mats a r o hf with ⟨rr, hreg, _⟩
    unfold regularize_recipe at hreg
    rcases Except.map_eq_ok _ _ _ hreg with ⟨ings, hmap, _⟩
    exact mapM_ok_every _ _ ings hmap i hi
  refine ⟨ha, ?_, ?_, ?_, ?_⟩
  · intro r rest mats e hreg
    unfold create_grocery_list
    rw [List.foldlM_cons]
    simp only [hreg, Bind.bind, Except.bind]
  · intro r rest mats rr e hreg hadd
    unfold create_grocery_list
    rw [List.foldlM_cons]
    simp only [hreg, Bind.bind, Except.bind, hadd]
  · intro km r pre bad post e hsplit hpre hbad
    unfold regularize_recipe
    rw [hsplit, mapM_first_error _ e pre bad post hpre hbad]
    rfl
  · intro recipes mats ⟨r, hr, i, hi, hne⟩
    cases hc : create_grocery_list recipes mats with
    | error e => exact ⟨e, rfl⟩
    | ok out =>
      rcases ha recipes mats out hc r hr i hi with ⟨j, hj⟩
      exact absurd hj (hne j)

/-- Witness for C4: a recipe whose second ingredient cannot be regularized
makes the whole build fail with that `ValueError`. -/
theorem build_aborts_on_regularization_error_witness :
    create_grocery_list [⟨"Bad", "s", [⟨⟨3, countUnit⟩, "Flour"⟩], []⟩] [flour] =
      Except.error (QuantityError.valueError "Flour" ⟨3, countUnit⟩ gram) := by
  have hing : regularize_ingredient ⟨⟨3, countUnit⟩, "Flour"⟩ (material_lookup [flour]) =
      Except.error (QuantityError.valueError "Flour" ⟨3, countUnit⟩ gram) := by
    rw [regularize_ingredient_matched _ _ flour rfl, if_neg (by decide),
      if_neg (by decide), if_neg (by decide)]
    rfl
  have hreg : regularize_recipe ⟨"Bad", "s", [⟨⟨3, countUnit⟩, "Flour"⟩], []⟩
      (material_lookup [flour]) =
      Except.error (QuantityError.valueError "Flour" ⟨3, countUnit⟩ gram) := by
    unfold regularize_recipe
    rw [List.mapM_cons, hing]
    rfl
  exact build_aborts_on_regularization_error.2.1 _ [] [flour] _ hreg

/-- Regularization never changes the item name. -/
lemma regularize_item_eq (i j : IngredientData)
    (km : String → Option MaterialData)
    (h : regularize_ingredient i km = Except.ok j) : j.item = i.item := by
  cases hlk : km i.item with
  | none =>
    rw [regularize_ingredient_unmatched i km hlk] at h
    obtain rfl := Except.ok.inj h
    rfl
  | some m =>
    rw [regularize_ingredient_matched i km m hlk] at h
    split_ifs at h with h1 h2 h3
    · rcases Except.map_eq_ok _ _ _ h with ⟨v, _, hv⟩
      rw [← hv]
    · cases hmp : m.mass_per_unit with
      | none =>
        rw [hmp] at h
        exact Except.noConfusion h
      | some factor =>
        rw [hmp] at h
        have h₁ : (i.quantity.divTo factor m.unit).map
            (fun q => (⟨q, i.item⟩ : IngredientData)) = Except.ok j := h
        rcases Except.map_eq_ok _ _ _ h₁ with ⟨v, _, hv⟩
        rw [← hv]
    · cases hvp : m.volume_per_unit with
      | none =>
        rw [hvp] at h
        exact Except.noConfusion h
      | some factor =>
        rw [hvp] at h
        have h₁ : (i.quantity.divTo factor m.unit).map
            (fun q => (⟨q, i.item⟩ : IngredientData)) = Except.ok j := h
        rcases Except.map_eq_ok _ _ _ h₁ with ⟨v, _, hv⟩
        rw [← hv]

/-- Regularizing a recipe leaves the group of an uncatalogued name
untouched. -/
lemma mapM_filterName_unmatched (km : String → Option MaterialData)
    (n : String) (hn : km n = none) :
    ∀ (l l₂ : List IngredientData),
      l.mapM (fun i => regularize_ingredient i km) = Except.ok l₂ →
      filterName n l₂ = filterName n l := by
  intro l
  induction l with
  | nil =>
    intro l₂ h
    obtain rfl := Except.ok.inj h
    rfl
  | cons x rest ih =>
    intro l₂ h
    rw [List.mapM_cons] at h
    cases hx : regularize_ingredient x km with
    | error e =>
      rw [hx] at h
      exact Except.noConfusion h
    | ok b =>
      rw [hx] at h
      cases hrest : rest.mapM (fun i => regularize_ingredient i km) with
      | error e =>
        rw [hrest] at h
        exact Except.noConfusion h
      | ok bs =>
        rw [hrest] at h
        have h₂ : Except.ok (b :: bs) = Except.ok l₂ := h
        obtain rfl := Except.ok.inj h₂
        have hitem : b.item = x.item := regularize_item_eq x b km hx
        by_cases hxn : x.item = n
        · have hb : b = x := by
            have hunm : regularize_ingredient x km = Except.ok x :=
              regularize_ingredient_unmatched x km (by rw [hxn]; exact hn)
            exact Except.ok.inj (hx.symm.trans hunm)
          subst hb
          rw [filterName_cons_of_eq n b bs (hitem.trans (hitem ▸ hxn)),
            filterName_cons_of_eq n b rest (hitem.trans (hitem ▸ hxn)), ih bs hrest]
        · have hbn : b.item ≠ n := by rw [hitem]; exact hxn
          rw [filterName_cons_of_ne n b bs hbn, filterName_cons_of_ne n x rest hxn,
            ih bs hrest]

/-- The `create_grocery_list` fold preserves a single-entry group of an
uncatalogued name. -/
lemma foldlM_filterName (n : String) (e : IngredientData)
    (f : List IngredientData → RecipeData → Except QuantityError (List IngredientData))
    (hf : ∀ acc r acc₁, f acc r = Except.ok acc₁ →
      ∃ rr : RecipeData, add_recipe_to_ingredients acc rr = Except.ok acc₁ ∧
        filterName n rr.ingredients = filterName n r.ingredients) :
    ∀ (recipes : List RecipeData) (acc out : List IngredientData),
      List.foldlM f acc recipes = Except.ok out →
      filterName n acc ++
        filterName n ((recipes.map (fun r => r.ingredients)).flatten) = [e] →
      filterName n out = [e] := by
  intro recipes
  induction recipes with
  | nil =>
    intro acc out h hfil
    obtain rfl := Except.ok.inj h
    simpa [filterName] using hfil
  | cons r rest ih =>
    intro acc out h hfil
    rw [List.foldlM_cons] at h
    cases hstep : f acc r with
    | error e₁ =>
      rw [hstep] at h
      exact Except.noConfusion h
    | ok acc₁ =>
      rw [hstep] at h
      have h₂ : List.foldlM f acc₁ rest = Except.ok out := h
      rcases hf acc r acc₁ hstep with ⟨rr, hadd, hfeq⟩
      have hflat : filterName n ((List.map (fun r => r.ingredients) (r :: rest)).flatten) =
          filterName n r.ingredients ++
            filterName n ((rest.map (fun r => r.ingredients)).flatten) := by
        rw [List.map_cons, List.flatten_cons, filterName_append]
      rw [hflat] at hfil
      have hlen : (filterName n (acc ++ rr.ingredients)).length ≤ 1 := by
        rw [filterName_append, hfeq]
        have hl := congrArg List.length hfil
        simp [List.length_append] at hl ⊢
        omega
      have hacc₁ : filterName n acc₁ = filterName n acc ++ filterName n r.ingredients := by
        rw [add_recipe_filterName acc rr acc₁ n hlen hadd, filterName_append, hfeq]
      refine ih acc₁ out h₂ ?_
      rw [hacc₁, List.append_assoc]
      exact hfil

/-- C6: an ingredient whose item has no entry in the material lookup passes
through the whole functional pipeline unchanged: if its name occurs exactly
once across all recipes, the successful grocery list contains exactly one
entry for it, with the as-stated quantity. -/
theorem unmatched_ingredient_passes_through :
    (∀ (ing : IngredientData) (km : String → Option MaterialData),
      km ing.item = none → regularize_ingredient ing km = Except.ok ing) ∧
    (∀ (recipes : List RecipeData) (mats : List MaterialData)
        (out : List IngredientData) (ing : IngredientData),
      material_lookup mats ing.item = none →
      filterName ing.item ((recipes.map (fun r => r.ingredients)).flatten) = [ing] →
      create_grocery_list recipes mats = Except.ok out →
      ing ∈ out) := by
  refine ⟨fun ing km h => regularize_ingredient_unmatched ing km h, ?_⟩
  intro recipes mats out ing hn hfil h
  unfold create_grocery_list at h
  have hf : ∀ (acc : List IngredientData) (r : RecipeData) (acc₁ : List IngredientData),
      (do
        let regularized ← regularize_recipe r (material_lookup mats)
        add_recipe_to_ingredients acc regularized) = Except.ok acc₁ →
      ∃ rr : RecipeData, add_recipe_to_ingredients acc rr = Except.ok acc₁ ∧
        filterName ing.item rr.ingredients = filterName ing.item r.ingredients := by
    intro acc r acc₁ hstep
    rcases create_step_ok mats acc r acc₁ hstep with ⟨rr, hreg, hadd⟩
    refine ⟨rr, hadd, ?_⟩
    unfold regularize_recipe at hreg
    rcases Except.map_eq_ok _ _ _ hreg with ⟨ings, hmapM, hrr⟩
    have hri : rr.ingredients = ings := by rw [← hrr]
    rw [hri]
    exact mapM_filterName_unmatched (material_lookup mats) ing.item hn
      r.ingredients ings hmapM
  have hfin := foldlM_filterName ing.item ing _ hf recipes [] out h
    (by simpa [filterName] using hfil)
  have hmem : ing ∈ filterName ing.item out := by
    rw [hfin]
    exact List.mem_singleton.mpr rfl
  exact List.mem_of_mem_filter hmem

/-- Witness for C6: an uncatalogued item keeps its stated quantity in the
built grocery list. -/
theorem unmatched_ingredient_passes_through_witness :
    create_grocery_list [⟨"A", "s", [⟨⟨3, countUnit⟩, "Unobtainium"⟩], []⟩] [flour] =
      Except.ok [⟨⟨3, countUnit⟩, "Unobtainium"⟩] ∧
    (⟨⟨3, countUnit⟩, "Unobtainium"⟩ : IngredientData) ∈
      [(⟨⟨3, countUnit⟩, "Unobtainium"⟩ : IngredientData)] := by
  have hnone : material_lookup [flour] "Unobtainium" = none := by decide
  have hreg : regularize_recipe ⟨"A", "s", [⟨⟨3, countUnit⟩, "Unobtainium"⟩], []⟩
      (material_lookup [flour]) =
      Except.ok ⟨"A", "s", [⟨⟨3, countUnit⟩, "Unobtainium"⟩], []⟩ := by
    unfold regularize_recipe
    rw [List.mapM_cons,
      regularize_ingredient_unmatched ⟨⟨3, countUnit⟩, "Unobtainium"⟩ _ hnone]
    rfl
  have hadd : add_recipe_to_ingredients []
      ⟨"A", "s", [⟨⟨3, countUnit⟩, "Unobtainium"⟩], []⟩ =
      Except.ok [⟨⟨3, countUnit⟩, "Unobtainium"⟩] := by
    norm_num [add_recipe_to_ingredients, List.insertionSort, List.orderedInsert,
      List.foldlM, mergeStep, Bind.bind, Except.bind, Pure.pure, Except.pure]
  have heval : create_grocery_list
      [⟨"A", "s", [⟨⟨3, countUnit⟩, "Unobtainium"⟩], []⟩] [flour] =
      Except.ok [⟨⟨3, countUnit⟩, "Unobtainium"⟩] := by
    unfold create_grocery_list
    rw [List.foldlM_cons]
    simp only [hreg, Bind.bind, Except.bind, hadd, List.foldlM_nil]
    rfl
  exact ⟨heval,
    unmatched_ingredient_passes_through.2
      [⟨"A", "s", [⟨⟨3, countUnit⟩, "Unobtainium"⟩], []⟩] [flour]
      [⟨⟨3, countUnit⟩, "Unobtainium"⟩] ⟨⟨3, countUnit⟩, "Unobtainium"⟩
      hnone rfl heval⟩

/-- `valSum` distributes over append. -/
lemma valSum_append (n : String) (l₁ l₂ : List IngredientData) :
    valSum n (l₁ ++ l₂) = valSum n l₁ + valSum n l₂ := by
  simp [valSum, filterName_append]

/-- `valSum` on a cons. -/
lemma valSum_cons (n : String) (x : IngredientData) (l : List IngredientData) :
    valSum n (x :: l) = (if x.item = n then x.quantity.value else 0) + valSum n l := by
  by_cases hx : x.item = n
  · rw [if_pos hx]
    simp [valSum, filterName_cons_of_eq n x l hx]
  · rw [if_neg hx]
    simp [valSum, filterName_cons_of_ne n x l hx]

/-- Unfolding the dict-comprehension fold: a hit comes from the
accumulator or from a list member with that name. -/
lemma material_lookup_foldl (n : String) (m : MaterialData) :
    ∀ (mats : List MaterialData) (acc : Option MaterialData),
      mats.foldl (fun acc material =>
        if material.name = n then some material else acc) acc = some m →
      (m ∈ mats ∧ m.name = n) ∨ acc = some m := by
  intro mats
  induction mats with
  | nil => intro acc h₂; exact Or.inr h₂
  | cons x rest ih =>
    intro acc h₂
    rw [List.foldl_cons] at h₂
    rcases ih _ h₂ with hdone | hacc
    · exact Or.inl ⟨List.mem_cons_of_mem x hdone.1, hdone.2⟩
    · by_cases hx : x.name = n
      · rw [if_pos hx] at hacc
        obtain rfl := Option.some.inj hacc
        exact Or.inl ⟨List.mem_cons_self x rest, hx⟩
      · rw [if_neg hx] at hacc
        exact Or.inr hacc

/-- A `material_lookup` hit is a member of the definition list bearing the
looked-up name. -/
lemma material_lookup_mem (mats : List MaterialData) (n : String) (m : MaterialData)
    (h : material_lookup mats n = some m) : m ∈ mats ∧ m.name = n := by
  rcases material_lookup_foldl n m mats none h with hdone | habs
  · exact hdone
  · exact Option.noConfusion habs

/-- A successful `.to` lands in the target unit with the rescaled value. -/
lemma Quantity.to_ok_unit (q : Quantity) (u : UnitBase) (v : Quantity)
    (h : q.to u = Except.ok v) : v.unit = u := by
  unfold Quantity.to at h
  split at h
  · obtain rfl := Except.ok.inj h
    rfl
  · exact Except.noConfusion h

/-- A successful `divTo` lands in the target unit with the divided,
rescaled value. -/
lemma Quantity.divTo_ok_unit (q : Quantity) (r : Ratio) (t : UnitBase)
    (v : Quantity) (h : q.divTo r t = Except.ok v) : v.unit = t := by
  unfold Quantity.divTo at h
  split at h
  · obtain rfl := Except.ok.inj h
    rfl
  · exact Except.noConfusion h

/-- Adding quantities that share a unit just adds the values. -/
lemma Quantity.add_same_unit (a b : Quantity) (hu : b.unit = a.unit)
    (hf : a.unit.factor ≠ 0) :
    a.add b = Except.ok ⟨a.value + b.value, a.unit⟩ := by
  unfold Quantity.add
  rw [if_pos (by rw [hu]), hu, div_self hf, mul_one]

/-- A successful regularization against a catalog hit produces the
material's canonical unit and the value `regValue`. -/
lemma regularize_matched_ok (i j : IngredientData)
    (lk : String → Option MaterialData) (m : MaterialData)
    (hlk : lk i.item = some m)
    (h : regularize_ingredient i lk = Except.ok j) :
    j.item = i.item ∧ j.quantity.unit = m.unit ∧ j.quantity.value = regValue lk i := by
  refine ⟨regularize_item_eq i j lk h, ?_, by simp [regValue, h]⟩
  rw [regularize_ingredient_matched i lk m hlk] at h
  split_ifs at h with h1 h2 h3
  · rcases Except.map_eq_ok _ _ _ h with ⟨v, hto, hv⟩
    rw [← hv]
    exact Quantity.to_ok_unit _ _ _ hto
  · cases hmp : m.mass_per_unit with
    | none =>
      rw [hmp] at h
      exact Except.noConfusion h
    | some factor =>
      rw [hmp] at h
      have h₁ : (i.quantity.divTo factor m.unit).map
          (fun q => (⟨q, i.item⟩ : IngredientData)) = Except.ok j := h
      rcases Except.map_eq_ok _ _ _ h₁ with ⟨v, hdt, hv⟩
      rw [← hv]
      exact Quantity.divTo_ok_unit _ _ _ _ hdt
  · cases hvp : m.volume_per_unit with
    | none =>
      rw [hvp] at h
      exact Except.noConfusion h
    | some factor =>
      rw [hvp] at h
      have h₁ : (i.quantity.divTo factor m.unit).map
          (fun q => (⟨q, i.item⟩ : IngredientData)) = Except.ok j := h
      rcases Except.map_eq_ok _ _ _ h₁ with ⟨v, hdt, hv⟩
      rw [← hv]
      exact Quantity.divTo_ok_unit _ _ _ _ hdt

/-- On canonical-unit input, the merge keeps every group in the canonical
unit and sums its values. -/
lemma mergeRun_canonical (lk : String → Option MaterialData)
    (hfac : ∀ (n : String) (m : MaterialData), lk n = some m → m.unit.factor ≠ 0)
    (s : List IngredientData) :
    ∀ (done : List IngredientData) (c : IngredientData) (out : List IngredientData),
      (∀ e ∈ done ++ c :: s, CanonEntry lk e) →
      mergeRun done (some c) s = Except.ok out →
      (∀ e ∈ out, CanonEntry lk e) ∧
      (∀ n, valSum n out = valSum n (done ++ c :: s)) ∧
      (∀ n, n ∈ out.map (fun i => i.item) ↔
        n ∈ (done ++ c :: s).map (fun i => i.item)) := by
  induction s with
  | nil =>
    intro done c out hcanon hrun
    rw [mergeRun_some_nil] at hrun
    obtain rfl := Except.ok.inj hrun
    exact ⟨hcanon, fun n => rfl, fun n => Iff.rfl⟩
  | cons x rest ih =>
    intro done c out hcanon hrun
    by_cases hx : x.item = c.item
    · rcases hcanon c (by simp) with ⟨m, hm, hcu⟩
      rcases hcanon x (by simp) with ⟨m₂, hm₂, hxu⟩
      have hmm : m₂ = m := by
        rw [hx] at hm₂
        exact Option.some.inj (hm₂.symm.trans hm)
      rw [hmm] at hm₂ hxu
      have hadd : x.quantity.add c.quantity =
          Except.ok ⟨x.quantity.value + c.quantity.value, x.quantity.unit⟩ :=
        Quantity.add_same_unit x.quantity c.quantity (hcu.trans hxu.symm)
          (by rw [hxu]; exact hfac _ m hm₂)
      rw [mergeRun_some_cons_eq _ _ _ _ hx, hadd] at hrun
      have hrun₂ : mergeRun done
          (some ⟨⟨x.quantity.value + c.quantity.value, x.quantity.unit⟩, x.item⟩)
          rest = Except.ok out := hrun
      have hcanon₂ : ∀ e ∈ done ++
          (⟨⟨x.quantity.value + c.quantity.value, x.quantity.unit⟩, x.item⟩ :
            IngredientData) :: rest, CanonEntry lk e := by
        intro e he
        rcases List.mem_append.mp he with hd | hcr
        · exact hcanon e (List.mem_append.mpr (Or.inl hd))
        · rcases List.mem_cons.mp hcr with rfl | hr
          · exact ⟨m, hm₂, hxu⟩
          · exact hcanon e (by simp [hr])
      rcases ih done _ out hcanon₂ hrun₂ with ⟨hc₁, hv₁, hn₁⟩
      refine ⟨hc₁, ?_, ?_⟩
      · intro n
        rw [hv₁ n, valSum_append, valSum_append, valSum_cons, valSum_cons, valSum_cons]
        by_cases hn : x.item = n
        · rw [if_pos hn, if_pos hn, if_pos (hx.symm.trans hn)]
          ring
        · rw [if_neg hn, if_neg hn, if_neg (fun hcn => hn (hx.trans hcn))]
          ring
      · intro n
        rw [hn₁ n]
        simp only [List.map_append, List.map_cons, List.mem_append, List.mem_cons]
        rw [← hx]
        tauto
    · rw [mergeRun_some_cons_ne _ _ _ _ hx] at hrun
      have hre : (done ++ [c]) ++ x :: rest = done ++ c :: x :: rest := by simp
      have hcanon₂ : ∀ e ∈ (done ++ [c]) ++ x :: rest, CanonEntry lk e := by
        rw [hre]
        exact hcanon
      rcases ih (done ++ [c]) x out hcanon₂ hrun with ⟨hc₁, hv₁, hn₁⟩
      refine ⟨hc₁, ?_, ?_⟩
      · intro n
        rw [hv₁ n, hre]
      · intro n
        rw [hn₁ n, hre]

/-- `valSum` is invariant under permutation. -/
lemma valSum_perm (n : String) {l₁ l₂ : List IngredientData} (h : l₁.Perm l₂) :
    valSum n l₁ = valSum n l₂ :=
  List.Perm.sum_eq ((h.filter _).map _)

/-- `add_recipe_to_ingredients` on canonical input: output entries are
canonical, a name appears iff it appeared in an input, and each output
value is the `valSum` of the combined input at its name. -/
lemma add_recipe_canonical (lk : String → Option MaterialData)
    (hfac : ∀ (n : String) (m : MaterialData), lk n = some m → m.unit.factor ≠ 0)
    (ings : List IngredientData) (r : RecipeData) (out : List IngredientData)
    (hcanon : ∀ e ∈ ings ++ r.ingredients, CanonEntry lk e)
    (h : add_recipe_to_ingredients ings r = Except.ok out) :
    (∀ e ∈ out, CanonEntry lk e) ∧
    (∀ n, valSum n out = valSum n (ings ++ r.ingredients)) ∧
    (∀ n, n ∈ out.map (fun i => i.item) ↔
      n ∈ (ings ++ r.ingredients).map (fun i => i.item)) := by
  unfold add_recipe_to_ingredients at h
  have hperm : (List.insertionSort itemLe (ings ++ r.ingredients)).Perm
      (ings ++ r.ingredients) := List.perm_insertionSort _ _
  have hcanon₂ : ∀ e ∈ List.insertionSort itemLe (ings ++ r.ingredients),
      CanonEntry lk e := fun e he => hcanon e (hperm.mem_iff.mp he)
  have hv : ∀ n, valSum n (List.insertionSort itemLe (ings ++ r.ingredients)) =
      valSum n (ings ++ r.ingredients) := fun n => valSum_perm n hperm
  have hnm : ∀ n, (n ∈ (List.insertionSort itemLe (ings ++ r.ingredients)).map
        (fun i => i.item)) ↔
      n ∈ (ings ++ r.ingredients).map (fun i => i.item) :=
    fun n => (hperm.map _).mem_iff
  revert h hcanon₂ hv hnm
  generalize List.insertionSort itemLe (ings ++ r.ingredients) = s
  intro h hcanon₂ hv hnm
  cases s with
  | nil =>
    obtain rfl := Except.ok.inj h
    exact ⟨fun e he => absurd he (List.not_mem_nil e), hv, hnm⟩
  | cons x rest =>
    rw [foldlM_mergeStep_eq_mergeRun_nil] at h
    rcases mergeRun_canonical lk hfac rest [] x out hcanon₂ h with ⟨h1, h2, h3⟩
    exact ⟨h1, fun n => (h2 n).trans (hv n), fun n => (h3 n).trans (hnm n)⟩

/-- A successful `mapM` is a pointwise `Forall₂` of graph pairs. -/
lemma mapM_forall₂ (f : IngredientData → Except QuantityError IngredientData) :
    ∀ (l l₂ : List IngredientData), l.mapM f = Except.ok l₂ →
      List.Forall₂ (fun a b => f a = Except.ok b) l l₂ := by
  intro l
  induction l with
  | nil =>
    intro l₂ h
    obtain rfl := Except.ok.inj h
    exact List.Forall₂.nil
  | cons x rest ih =>
    intro l₂ h
    rw [List.mapM_cons] at h
    cases hx : f x with
    | error e =>
      rw [hx] at h
      exact Except.noConfusion h
    | ok b =>
      rw [hx] at h
      cases hrest : rest.mapM f with
      | error e =>
        rw [hrest] at h
        exact Except.noConfusion h
      | ok bs =>
        rw [hrest] at h
        have h₂ : Except.ok (b :: bs) = Except.ok l₂ := h
        obtain rfl := Except.ok.inj h₂
        exact List.Forall₂.cons hx (ih bs hrest)

/-- A successful `regularize_recipe` relates input and output ingredients
pointwise by `regularize_ingredient`. -/
lemma regularize_recipe_forall₂ (r rr : RecipeData)
    (lk : String → Option MaterialData)
    (h : regularize_recipe r lk = Except.ok rr) :
    List.Forall₂ (fun i j => regularize_ingredient i lk = Except.ok j)
      r.ingredients rr.ingredients := by
  unfold regularize_recipe at h
  rcases Except.map_eq_ok _ _ _ h with ⟨ings, hmapM, hrr⟩
  have hri : rr.ingredients = ings := by rw [← hrr]
  rw [hri]
  exact mapM_forall₂ _ _ _ hmapM

/-- Pointwise regularization outputs are canonical, value-correct and
name-preserving on catalogued names, and identical on uncatalogued ones. -/
lemma forall₂_reg_props (lk : String → Option MaterialData) :
    ∀ (l l₂ : List IngredientData),
      List.Forall₂ (fun i j => regularize_ingredient i lk = Except.ok j) l l₂ →
      (∀ i ∈ l, ∃ m, lk i.item = some m) →
      (∀ e ∈ l₂, CanonEntry lk e) ∧
      (∀ n, valSum n l₂ = ((filterName n l).map (fun i => regValue lk i)).sum) ∧
      (l₂.map (fun i => i.item) = l.map (fun i => i.item)) := by
  intro l l₂ hf
  induction hf with
  | nil =>
    intro _
    exact ⟨by simp, fun n => rfl, rfl⟩
  | @cons a b l₁ l₂₁ hR hrest ih =>
    intro hm
    rcases hm a (by simp) with ⟨m, hma⟩
    rcases regularize_matched_ok a b lk m hma hR with ⟨hitem, hunit, hval⟩
    rcases ih (fun i hi => hm i (by simp [hi])) with ⟨ih1, ih2, ih3⟩
    refine ⟨?_, ?_, ?_⟩
    · intro e he
      rcases List.mem_cons.mp he with rfl | hmem
      · exact ⟨m, by rw [hitem]; exact hma, hunit⟩
      · exact ih1 e hmem
    · intro n
      rw [valSum_cons, ih2 n]
      by_cases hn : a.item = n
      · rw [if_pos (hitem.trans hn), filterName_cons_of_eq n a l₁ hn,
          List.map_cons, List.sum_cons, hval]
      · rw [if_neg (fun hbn => hn (hitem.symm.trans hbn)),
          filterName_cons_of_ne n a l₁ hn, zero_add]
    · rw [List.map_cons, List.map_cons, ih3, hitem]

/-- `allIngredients` on a cons of recipes. -/
lemma allIngredients_cons (r : RecipeData) (rest : List RecipeData) :
    allIngredients (r :: rest) = r.ingredients ++ allIngredients rest := by
  simp [allIngredients]

/-- Master invariant of the functional build: from a canonical accumulator,
the fold stays canonical, accumulates `valSum` over all processed
ingredients, and mentions exactly the names seen. -/
lemma foldlM_create_canonical (mats : List MaterialData)
    (hfac : ∀ m ∈ mats, m.unit.factor ≠ 0)
    (f : List IngredientData → RecipeData → Except QuantityError (List IngredientData))
    (hf : ∀ acc r acc₁, f acc r = Except.ok acc₁ →
      ∃ rr, regularize_recipe r (material_lookup mats) = Except.ok rr ∧
        add_recipe_to_ingredients acc rr = Except.ok acc₁) :
    ∀ (recipes : List RecipeData) (acc out : List IngredientData),
      (∀ r ∈ recipes, ∀ i ∈ r.ingredients, ∃ m, material_lookup mats i.item = some m) →
      (∀ e ∈ acc, CanonEntry (material_lookup mats) e) →
      List.foldlM f acc recipes = Except.ok out →
      (∀ e ∈ out, CanonEntry (material_lookup mats) e) ∧
      (∀ n, valSum n out = valSum n acc +
        ((filterName n (allIngredients recipes)).map
          (fun i => regValue (material_lookup mats) i)).sum) ∧
      (∀ n, n ∈ out.map (fun i => i.item) ↔
        (n ∈ acc.map (fun i => i.item) ∨
          n ∈ (allIngredients recipes).map (fun i => i.item))) := by
  have lkfac : ∀ (n : String) (m : MaterialData),
      material_lookup mats n = some m → m.unit.factor ≠ 0 :=
    fun n m h => hfac m (material_lookup_mem mats n m h).1
  intro recipes
  induction recipes with
  | nil =>
    intro acc out _ hacc h
    obtain rfl := Except.ok.inj h
    refine ⟨hacc, fun n => by simp [allIngredients, valSum, filterName], fun n => ?_⟩
    simp [allIngredients]
  | cons r rest ih =>
    intro acc out hm hacc h
    rw [List.foldlM_cons] at h
    cases hstep : f acc r with
    | error e =>
      rw [hstep] at h
      exact Except.noConfusion h
    | ok acc₁ =>
      rw [hstep] at h
      have h₂ : List.foldlM f acc₁ rest = Except.ok out := h
      rcases hf acc r acc₁ hstep with ⟨rr, hreg, hadd⟩
      have hfor := regularize_recipe_forall₂ r rr _ hreg
      rcases forall₂_reg_props _ r.ingredients rr.ingredients hfor
        (hm r (by simp)) with ⟨hrc, hrv, hrn⟩
      have hcanon₁₂ : ∀ e ∈ acc ++ rr.ingredients, CanonEntry (material_lookup mats) e := by
        intro e he
        rcases List.mem_append.mp he with h₃ | h₃
        · exact hacc e h₃
        · exact hrc e h₃
      rcases add_recipe_canonical _ lkfac acc rr acc₁ hcanon₁₂ hadd with ⟨hc₁, hv₁, hn₁⟩
      rcases ih acc₁ out (fun r₂ hr₂ i hi => hm r₂ (by simp [hr₂]) i hi) hc₁ h₂
        with ⟨ho₁, ho₂, ho₃⟩
      refine ⟨ho₁, ?_, ?_⟩
      · intro n
        rw [ho₂ n, hv₁ n, valSum_append, hrv n, allIngredients_cons,
          filterName_append, List.map_append, List.sum_append]
        ring
      · intro n
        rw [ho₃ n, hn₁ n, allIngredients_cons]
        simp only [List.map_append, List.mem_append, hrn]
        tauto

/-- A name absent from a list has an empty group. -/
lemma filterName_eq_nil_of_not_mem (n : String) :
    ∀ (l : List IngredientData), n ∉ l.map (fun i => i.item) → filterName n l = [] := by
  intro l
  induction l with
  | nil => intro _; rfl
  | cons x t ih =>
    intro h
    have hx : x.item ≠ n := fun hh => h (by simp [hh])
    rw [filterName_cons_of_ne n x t hx]
    exact ih (fun hh => h (by simp [hh]))

/-- With distinct names, the group of a present name is the singleton of
its entry. -/
lemma filterName_of_nodup :
    ∀ (l : List IngredientData), ((l.map (fun i => i.item)).Nodup) →
      ∀ e ∈ l, filterName e.item l = [e] := by
  intro l
  induction l with
  | nil => intro _ e he; cases he
  | cons x t ih =>
    intro hnd e he
    rw [List.map_cons, List.nodup_cons] at hnd
    rcases List.mem_cons.mp he with rfl | hmem
    · rw [filterName_cons_of_eq e.item e t rfl,
        filterName_eq_nil_of_not_mem e.item t hnd.1]
    · have hx : x.item ≠ e.item := by
        intro hh
        exact hnd.1 (by rw [hh]; exact List.mem_map.mpr ⟨e, hmem, rfl⟩)
      rw [filterName_cons_of_ne e.item x t hx]
      exact ih hnd.2 e hmem

/-- A singleton group's `valSum` is its entry's value. -/
lemma valSum_of_filterName_singleton (n : String) (l : List IngredientData)
    (e : IngredientData) (h : filterName n l = [e]) :
    valSum n l = e.quantity.value := by
  simp [valSum, h]

/-- `load_ingredient` on a catalog hit does not change the lookup and
constructs the `Ingredient` from the hit. -/
lemma load_ingredient_matched (lk : String → Option MaterialData)
    (i : IngredientData) (m : MaterialData) (hlk : lk i.item = some m) :
    load_ingredient lk i =
      (Ingredient.init i.quantity m).map (fun q => (⟨m, q⟩, lk)) := by
  unfold load_ingredient
  rw [hlk]

/-- The functional `regularize_ingredient` and the OOP
`Ingredient.__init__` perform the same computation on a catalog hit: same
error, or same quantity. -/
lemma regularize_eq_init (i : IngredientData) (lk : String → Option MaterialData)
    (m : MaterialData) (hlk : lk i.item = some m) (hname : m.name = i.item) :
    regularize_ingredient i lk =
      (Ingredient.init i.quantity m).map (fun q => ⟨q, i.item⟩) := by
  rw [regularize_ingredient_matched i lk m hlk]
  unfold Ingredient.init
  split_ifs with h1 h2 h3
  · rfl
  · cases hmp : m.mass_per_unit <;> rfl
  · cases hvp : m.volume_per_unit <;> rfl
  · rw [hname]
    rfl

/-- Constructing the cart's starter `Ingredient(0 * material.unit, ...)`
succeeds with value 0 in the canonical unit. -/
lemma init_zero (m : MaterialData) :
    Ingredient.init ⟨0, m.unit⟩ m = Except.ok ⟨0, m.unit⟩ := by
  unfold Ingredient.init Quantity.to
  rw [if_pos rfl, if_pos rfl]
  norm_num

/-- When every item of a recipe is catalogued, loading neither changes the
lookup nor does anything but pointwise regularization (`LoadRel`). -/
lemma load_ingredients_matched (lk : String → Option MaterialData) :
    ∀ (l : List IngredientData) (gs : List Ingredient)
      (lk₂ : String → Option MaterialData),
      (∀ i ∈ l, ∃ m, lk i.item = some m) →
      load_ingredients lk l = Except.ok (gs, lk₂) →
      lk₂ = lk ∧ List.Forall₂ (LoadRel lk) l gs := by
  intro l
  induction l with
  | nil =>
    intro gs lk₂ _ h
    rw [load_ingredients] at h
    obtain h₂ := Except.ok.inj h
    injection h₂ with h₃ h₄
    subst h₃
    subst h₄
    exact ⟨rfl, List.Forall₂.nil⟩
  | cons i rest ih =>
    intro gs lk₂ hm h
    rw [load_ingredients] at h
    rcases hm i (by simp) with ⟨m, hmi⟩
    rw [load_ingredient_matched lk i m hmi] at h
    cases hini : Ingredient.init i.quantity m with
    | error e =>
      rw [hini] at h
      exact Except.noConfusion h
    | ok q =>
      rw [hini] at h
      have h₂ : (do
          let (ings, lookup₂) ← load_ingredients lk rest
          Except.ok ((⟨m, q⟩ : Ingredient) :: ings, lookup₂)) =
          Except.ok (gs, lk₂) := h
      cases hrest : load_ingredients lk rest with
      | error e =>
        rw [hrest] at h₂
        exact Except.noConfusion h₂
      | ok p =>
        obtain ⟨gs₁, lk₁⟩ := p
        rw [hrest] at h₂
        have h₃ : Except.ok ((⟨m, q⟩ : Ingredient) :: gs₁, lk₁) =
            Except.ok (gs, lk₂) := h₂
        obtain h₄ := Except.ok.inj h₃
        injection h₄ with h₅ h₆
        subst h₅
        subst h₆
        rcases ih gs₁ lk₁ (fun i₂ hi₂ => hm i₂ (by simp [hi₂])) hrest with ⟨hlk, hfor⟩
        exact ⟨hlk, List.Forall₂.cons ⟨m, hmi, rfl, hini⟩ hfor⟩

/-- When every item of every recipe is catalogued, `load_recipes` keeps the
lookup and relates inputs to loaded ingredients recipe by recipe. -/
lemma load_recipes_matched (lk : String → Option MaterialData) :
    ∀ (rs : List RecipeData) (rss : List (List Ingredient))
      (lk₂ : String → Option MaterialData),
      (∀ r ∈ rs, ∀ i ∈ r.ingredients, ∃ m, lk i.item = some m) →
      load_recipes lk rs = Except.ok (rss, lk₂) →
      lk₂ = lk ∧ List.Forall₂
        (fun (r : RecipeData) gs => List.Forall₂ (LoadRel lk) r.ingredients gs) rs rss := by
  intro rs
  induction rs with
  | nil =>
    intro rss lk₂ _ h
    rw [load_recipes] at h
    obtain h₂ := Except.ok.inj h
    injection h₂ with h₃ h₄
    subst h₃
    subst h₄
    exact ⟨rfl, List.Forall₂.nil⟩
  | cons r rest ih =>
    intro rss lk₂ hm h
    rw [load_recipes] at h
    cases hing : load_ingredients lk r.ingredients with
    | error e =>
      rw [hing] at h
      exact Except.noConfusion h
    | ok p =>
      obtain ⟨gs₁, lkA⟩ := p
      rw [hing] at h
      rcases load_ingredients_matched lk r.ingredients gs₁ lkA
        (hm r (by simp)) hing with ⟨hlkA, hforA⟩
      rw [hlkA] at h
      have h₂ : (do
          let (rss₁, lookup₂) ← load_recipes lk rest
          Except.ok (gs₁ :: rss₁, lookup₂)) = Except.ok (rss, lk₂) := h
      cases hrest : load_recipes lk rest with
      | error e =>
        rw [hrest] at h₂
        exact Except.noConfusion h₂
      | ok p₂ =>
        obtain ⟨rss₁, lkB⟩ := p₂
        rw [hrest] at h₂
        have h₃ : Except.ok (gs₁ :: rss₁, lkB) = Except.ok (rss, lk₂) := h₂
        obtain h₄ := Except.ok.inj h₃
        injection h₄ with h₅ h₆
        subst h₅
        subst h₆
        rcases ih rss₁ lkB (fun r₂ hr₂ i hi => hm r₂ (by simp [hr₂]) i hi) hrest
          with ⟨hlk, hfor⟩
        exact ⟨hlk, List.Forall₂.cons hforA hfor⟩

/-- `gsValSum` on a cons. -/
lemma gsValSum_cons (n : String) (g : Ingredient) (rest : List Ingredient) :
    gsValSum n (g :: rest) =
      (if g.material.name = n then g.quantity.value else 0) + gsValSum n rest := by
  by_cases hn : g.material.name = n
  · simp [gsValSum, List.filter_cons, hn]
  · simp [gsValSum, List.filter_cons, hn]

/-- Cart lookup in an append when the key misses the first part. -/
lemma cart_get_append_of_none (c₁ c₂ : List (String × Quantity)) (n : String)
    (h : cart_get c₁ n = none) : cart_get (c₁ ++ c₂) n = cart_get c₂ n := by
  induction c₁ with
  | nil => rfl
  | cons p rest ih =>
    rw [cart_get] at h
    by_cases hp : p.1 = n
    · rw [if_pos hp] at h
      exact Option.noConfusion h
    · rw [if_neg hp] at h
      rw [List.cons_append, cart_get, if_neg hp]
      exact ih h

/-- Cart lookup in an append when the key hits the first part. -/
lemma cart_get_append_of_some (c₁ c₂ : List (String × Quantity)) (n : String)
    (q : Quantity) (h : cart_get c₁ n = some q) :
    cart_get (c₁ ++ c₂) n = some q := by
  induction c₁ with
  | nil => exact Option.noConfusion h
  | cons p rest ih =>
    rw [cart_get] at h
    by_cases hp : p.1 = n
    · rw [if_pos hp] at h
      rw [List.cons_append, cart_get, if_pos hp]
      exact h
    · rw [if_neg hp] at h
      rw [List.cons_append, cart_get, if_neg hp]
      exact ih h

/-- A cart lookup misses exactly when the key is not among the cart's
keys. -/
lemma cart_get_none_iff (c : List (String × Quantity)) (n : String) :
    cart_get c n = none ↔ n ∉ c.map Prod.fst := by
  induction c with
  | nil => simp [cart_get]
  | cons p rest ih =>
    by_cases hp : p.1 = n
    · simp [cart_get, hp]
    · simp only [cart_get, if_neg hp, List.map_cons, List.mem_cons, ih]
      constructor
      · intro h₂ h₃
        rcases h₃ with h₄ | h₄
        · exact hp h₄.symm
        · exact h₂ h₄
      · intro h₂ h₃
        exact h₂ (Or.inr h₃)

/-- A cart hit is an entry of the cart. -/
lemma cart_get_some_entry (c : List (String × Quantity)) (n : String)
    (q : Quantity) (h : cart_get c n = some q) : (n, q) ∈ c := by
  induction c with
  | nil => exact Option.noConfusion h
  | cons p rest ih =>
    rw [cart_get] at h
    by_cases hp : p.1 = n
    · rw [if_pos hp] at h
      obtain rfl := Option.some.inj h
      rw [← hp]
      exact List.mem_cons_self p rest
    · rw [if_neg hp] at h
      exact List.mem_cons_of_mem p (ih h)

/-- `cart_update` keeps the key sequence. -/
lemma cart_update_keys (c : List (String × Quantity)) (n : String) (q : Quantity) :
    (cart_update c n q).map Prod.fst = c.map Prod.fst := by
  induction c with
  | nil => rfl
  | cons p rest ih =>
    by_cases hp : p.1 = n
    · simp [cart_update, hp]
    · simp [cart_update, hp, ih]

/-- After updating a present key, looking it up yields the new value. -/
lemma cart_get_update_self (c : List (String × Quantity)) (n : String)
    (q : Quantity) (hmem : n ∈ c.map Prod.fst) :
    cart_get (cart_update c n q) n = some q := by
  induction c with
  | nil => cases hmem
  | cons p rest ih =>
    by_cases hp : p.1 = n
    · rw [cart_update, if_pos hp, cart_get, if_pos rfl]
    · rw [cart_update, if_neg hp, cart_get, if_neg hp]
      rw [List.map_cons, List.mem_cons] at hmem
      rcases hmem with h₂ | h₂
      · exact absurd h₂.symm hp
      · exact ih h₂

/-- Updating one key leaves lookups of other keys unchanged. -/
lemma cart_get_update_other (c : List (String × Quantity)) (n n₂ : String)
    (q : Quantity) (hne : n₂ ≠ n) :
    cart_get (cart_update c n q) n₂ = cart_get c n₂ := by
  induction c with
  | nil => rfl
  | cons p rest ih =>
    by_cases hp : p.1 = n
    · rw [cart_update, if_pos hp, cart_get, if_neg (fun h₂ => hne h₂.symm),
        cart_get, if_neg (fun h₂ => hne (hp ▸ h₂).symm)]
    · rw [cart_update, if_neg hp]
      by_cases hp₂ : p.1 = n₂
      · rw [cart_get, if_pos hp₂, cart_get, if_pos hp₂]
      · rw [cart_get, if_neg hp₂, cart_get, if_neg hp₂]
        exact ih

/-- Entries after an update: the updated pair, or an untouched entry of a
different key. -/
lemma cart_update_mem (c : List (String × Quantity)) (n : String) (q : Quantity) :
    ∀ p ∈ cart_update c n q, p = (n, q) ∨ p ∈ c := by
  induction c with
  | nil => intro p hp; cases hp
  | cons x rest ih =>
    intro p hp
    by_cases hx : x.1 = n
    · rw [cart_update, if_pos hx] at hp
      rcases List.mem_cons.mp hp with rfl | h₂
      · exact Or.inl rfl
      · exact Or.inr (List.mem_cons_of_mem x h₂)
    · rw [cart_update, if_neg hx] at hp
      rcases List.mem_cons.mp hp with heq | h₂
      · exact Or.inr (by rw [heq]; exact List.mem_cons_self x rest)
      · rcases ih p h₂ with h₃ | h₃
        · exact Or.inl h₃
        · exact Or.inr (List.mem_cons_of_mem x h₃)

/-- With distinct keys, membership determines the lookup. -/
lemma cart_get_of_mem (c : List (String × Quantity))
    (hnd : (c.map Prod.fst).Nodup) : ∀ p ∈ c, cart_get c p.1 = some p.2 := by
  induction c with
  | nil => intro p hp; cases hp
  | cons x rest ih =>
    intro p hp
    rw [List.map_cons, List.nodup_cons] at hnd
    rcases List.mem_cons.mp hp with rfl | h₂
    · rw [cart_get, if_pos rfl]
    · have hx : x.1 ≠ p.1 := by
        intro hh
        exact hnd.1 (by rw [hh]; exact List.mem_map.mpr ⟨p, h₂, rfl⟩)
      rw [cart_get, if_neg hx]
      exact ih hnd.2 p h₂

/-- Master invariant of the OOP cart fold: keys stay distinct, every value
stays in its material's canonical unit, and each key's value is its
incoming `cartVal` plus the `gsValSum` of the processed ingredients. -/
lemma get_shopping_list_fold_spec (lk : String → Option MaterialData)
    (hfac : ∀ (n : String) (m : MaterialData), lk n = some m → m.unit.factor ≠ 0) :
    ∀ (gs : List Ingredient) (cart out : List (String × Quantity)),
      (∀ g ∈ gs, lk g.material.name = some g.material ∧
        g.quantity.unit = g.material.unit) →
      ((cart.map Prod.fst).Nodup) →
      (∀ p ∈ cart, ∃ m, lk p.1 = some m ∧ p.2.unit = m.unit) →
      List.foldlM get_shopping_list_step cart gs = Except.ok out →
      ((out.map Prod.fst).Nodup) ∧
      (∀ p ∈ out, ∃ m, lk p.1 = some m ∧ p.2.unit = m.unit) ∧
      (∀ n, cartVal n out = cartVal n cart + gsValSum n gs) ∧
      (∀ n, n ∈ out.map Prod.fst ↔
        (n ∈ cart.map Prod.fst ∨ n ∈ gs.map (fun g => g.material.name))) := by
  intro gs
  induction gs with
  | nil =>
    intro cart out _ hnd hcart h
    obtain rfl := Except.ok.inj h
    refine ⟨hnd, hcart, fun n => by simp [gsValSum], fun n => by simp⟩
  | cons g rest ih =>
    intro cart out hgs hnd hcart h
    rw [List.foldlM_cons] at h
    obtain ⟨hlkg, hgu⟩ := hgs g (by simp)
    have hgfac : g.material.unit.factor ≠ 0 := hfac _ _ hlkg
    cases hget : cart_get cart g.material.name with
    | none =>
      have hstep : get_shopping_list_step cart g =
          Except.ok (cart ++
            [(g.material.name, ⟨0 + g.quantity.value, g.material.unit⟩)]) := by
        unfold get_shopping_list_step
        rw [hget, init_zero]
        simp only [Bind.bind, Except.bind]
        rw [Quantity.add_same_unit ⟨0, g.material.unit⟩ g.quantity hgu hgfac]
      rw [hstep] at h
      have h₂ : List.foldlM get_shopping_list_step
          (cart ++ [(g.material.name, ⟨0 + g.quantity.value, g.material.unit⟩)])
          rest = Except.ok out := h
      have hnotin : g.material.name ∉ cart.map Prod.fst :=
        (cart_get_none_iff cart g.material.name).mp hget
      have hnd₁ : (((cart ++
          [(g.material.name, (⟨0 + g.quantity.value, g.material.unit⟩ : Quantity))]).map
            Prod.fst)).Nodup := by
        rw [List.map_append]
        rw [List.nodup_append]
        refine ⟨hnd, by simp, ?_⟩
        intro a ha hb
        simp at hb
        rw [hb] at ha
        exact hnotin ha
      have hcart₁ : ∀ p ∈ cart ++
          [(g.material.name, ⟨0 + g.quantity.value, g.material.unit⟩)],
          ∃ m, lk p.1 = some m ∧ p.2.unit = m.unit := by
        intro p hp
        rcases List.mem_append.mp hp with h₃ | h₃
        · exact hcart p h₃
        · rw [List.mem_singleton] at h₃
          subst h₃
          exact ⟨g.material, hlkg, rfl⟩
      rcases ih _ out (fun g₂ hg₂ => hgs g₂ (by simp [hg₂])) hnd₁ hcart₁ h₂
        with ⟨o1, o2, o3, o4⟩
      refine ⟨o1, o2, ?_, ?_⟩
      · intro n
        rw [o3 n, gsValSum_cons]
        have hcv : cartVal n (cart ++
            [(g.material.name, ⟨0 + g.quantity.value, g.material.unit⟩)]) =
            cartVal n cart + (if g.material.name = n then g.quantity.value else 0) := by
          by_cases hn : g.material.name = n
          · subst hn
            simp [cartVal, cart_get_append_of_none _ _ _ hget, hget, cart_get]
          · cases hgn : cart_get cart n with
            | none =>
              simp [cartVal, cart_get_append_of_none _ _ _ hgn, hgn, cart_get, hn]
            | some q₂ =>
              simp [cartVal, cart_get_append_of_some _ _ _ _ hgn, hgn, hn]
        rw [hcv]
        ring
      · intro n
        rw [o4 n]
        simp only [List.map_append, List.map_cons, List.map_nil, List.mem_append,
          List.mem_singleton, List.mem_cons, List.not_mem_nil, or_false]
        tauto
    | some q₀ =>
      rcases hcart (g.material.name, q₀) (cart_get_some_entry _ _ _ hget)
        with ⟨m, hm, hq₀u⟩
      have hmm : m = g.material := Option.some.inj (hm.symm.trans hlkg)
      rw [hmm] at hq₀u
      have hstep : get_shopping_list_step cart g =
          Except.ok (cart_update cart g.material.name
            ⟨q₀.value + g.quantity.value, q₀.unit⟩) := by
        unfold get_shopping_list_step
        rw [hget]
        simp only [Bind.bind, Except.bind]
        rw [Quantity.add_same_unit q₀ g.quantity (hgu.trans hq₀u.symm)
          (by rw [hq₀u]; exact hgfac)]
      rw [hstep] at h
      have h₂ : List.foldlM get_shopping_list_step
          (cart_update cart g.material.name ⟨q₀.value + g.quantity.value, q₀.unit⟩)
          rest = Except.ok out := h
      have hnd₁ : ((cart_update cart g.material.name
          ⟨q₀.value + g.quantity.value, q₀.unit⟩).map Prod.fst).Nodup := by
        rw [cart_update_keys]
        exact hnd
      have hcart₁ : ∀ p ∈ cart_update cart g.material.name
          ⟨q₀.value + g.quantity.value, q₀.unit⟩,
          ∃ m₂, lk p.1 = some m₂ ∧ p.2.unit = m₂.unit := by
        intro p hp
        rcases cart_update_mem _ _ _ p hp with rfl | h₃
        · exact ⟨g.material, hlkg, hq₀u⟩
        · exact hcart p h₃
      rcases ih _ out (fun g₂ hg₂ => hgs g₂ (by simp [hg₂])) hnd₁ hcart₁ h₂
        with ⟨o1, o2, o3, o4⟩
      have hname_mem : g.material.name ∈ cart.map Prod.fst :=
        List.mem_map.mpr ⟨(g.material.name, q₀), cart_get_some_entry _ _ _ hget, rfl⟩
      refine ⟨o1, o2, ?_, ?_⟩
      · intro n
        rw [o3 n, gsValSum_cons]
        have hcv : cartVal n (cart_update cart g.material.name
            ⟨q₀.value + g.quantity.value, q₀.unit⟩) =
            cartVal n cart + (if g.material.name = n then g.quantity.value else 0) := by
          by_cases hn : g.material.name = n
          · subst hn
            simp [cartVal, cart_get_update_self _ _ _ hname_mem, hget]
          · rw [cartVal, cart_get_update_other _ _ _ _ (fun hh => hn hh.symm),
              if_neg hn, add_zero]
            rfl
        rw [hcv]
        ring
      · intro n
        rw [o4 n, cart_update_keys, List.map_cons]
        simp only [List.mem_cons]
        constructor
        · rintro (hk | hr)
          · exact Or.inl hk
          · exact Or.inr (Or.inr hr)
        · rintro (hk | heq | hr)
          · exact Or.inl hk
          · exact Or.inl (heq ▸ hname_mem)
          · exact Or.inr hr

/-- A recipe-by-recipe `Forall₂` flattens to one over all ingredients. -/
lemma forall₂_flatten {R : IngredientData → Ingredient → Prop} :
    ∀ {rs : List RecipeData} {rss : List (List Ingredient)},
      List.Forall₂ (fun (r : RecipeData) gs => List.Forall₂ R r.ingredients gs) rs rss →
      List.Forall₂ R (allIngredients rs) rss.flatten := by
  intro rs rss h
  induction h with
  | nil => exact List.Forall₂.nil
  | cons hR hrest ih =>
    rw [allIngredients_cons, List.flatten_cons]
    exact List.rel_append hR ih

/-- A `LoadRel` pair over the built lookup gives name equality, the
canonical unit and the `regValue` value. -/
lemma loadrel_props (mats : List MaterialData) :
    ∀ (l : List IngredientData) (gs : List Ingredient),
      List.Forall₂ (LoadRel (material_lookup mats)) l gs →
      (∀ g ∈ gs, material_lookup mats g.material.name = some g.material ∧
        g.quantity.unit = g.material.unit) ∧
      (∀ n, gsValSum n gs =
        ((filterName n l).map (fun i => regValue (material_lookup mats) i)).sum) ∧
      (gs.map (fun g => g.material.name) = l.map (fun i => i.item)) := by
  intro l gs h
  induction h with
  | nil => exact ⟨by simp, fun n => rfl, rfl⟩
  | @cons i g l₁ gs₁ hR hrest ih =>
    obtain ⟨m, hm, hgm, hini⟩ := hR
    have hname : m.name = i.item := (material_lookup_mem mats i.item m hm).2
    have hreg : regularize_ingredient i (material_lookup mats) =
        Except.ok ⟨g.quantity, i.item⟩ := by
      rw [regularize_eq_init i _ m hm hname, hini]
      rfl
    have hval : g.quantity.value = regValue (material_lookup mats) i := by
      simp [regValue, hreg]
    have hunit : g.quantity.unit = g.material.unit := by
      rw [hgm]
      exact (regularize_matched_ok i ⟨g.quantity, i.item⟩ _ m hm hreg).2.1
    have hgname : g.material.name = i.item := by
      rw [hgm]
      exact hname
    have hglk : material_lookup mats g.material.name = some g.material := by
      rw [hgm, hname]
      exact hm
    rcases ih with ⟨ih1, ih2, ih3⟩
    refine ⟨?_, ?_, ?_⟩
    · intro g₂ hg₂
      rcases List.mem_cons.mp hg₂ with rfl | h₃
      · exact ⟨hglk, hunit⟩
      · exact ih1 g₂ h₃
    · intro n
      rw [gsValSum_cons, ih2 n]
      by_cases hn : i.item = n
      · rw [if_pos (hgname.trans hn), filterName_cons_of_eq n i l₁ hn,
          List.map_cons, List.sum_cons, hval]
      · rw [if_neg (fun hh => hn (hgname.symm.trans hh)),
          filterName_cons_of_ne n i l₁ hn, zero_add]
    · rw [List.map_cons, List.map_cons, ih3, hgname]

/-- Closed form of the OOP pipeline when every item is catalogued: one
entry per distinct name in order of first appearance, carrying the summed
regularized value in the canonical unit. -/
lemma oop_shopping_list_ok (recipes : List RecipeData) (mats : List MaterialData)
    (out : List (String × Quantity))
    (h : oop_shopping_list recipes mats = Except.ok out) :
    ∃ rss lk₂, load_recipes (material_lookup mats) recipes = Except.ok (rss, lk₂) ∧
      get_shopping_list rss.flatten = Except.ok out := by
  unfold oop_shopping_list at h
  cases hlr : load_recipes (material_lookup mats) recipes with
  | error e =>
    rw [hlr] at h
    exact Except.noConfusion h
  | ok p =>
    obtain ⟨rss, lk₂⟩ := p
    rw [hlr] at h
    exact ⟨rss, lk₂, rfl, h⟩

/-- Closed form of the functional pipeline when every item is catalogued:
distinct names, every entry the summed regularized value in the canonical
unit, and a name present iff it occurs in some recipe. -/
lemma create_grocery_list_props (recipes : List RecipeData)
    (mats : List MaterialData) (outF : List IngredientData)
    (hmatch : ∀ r ∈ recipes, ∀ i ∈ r.ingredients,
      ∃ m, material_lookup mats i.item = some m)
    (hfac : ∀ m ∈ mats, m.unit.factor ≠ 0)
    (hF : create_grocery_list recipes mats = Except.ok outF) :
    ((outF.map (fun i => i.item)).Nodup) ∧
    (∀ e ∈ outF, e = ⟨⟨((filterName e.item (allIngredients recipes)).map
        (fun i => regValue (material_lookup mats) i)).sum,
      canonUnit (material_lookup mats) e.item⟩, e.item⟩) ∧
    (∀ n, n ∈ outF.map (fun i => i.item) ↔
      n ∈ (allIngredients recipes).map (fun i => i.item)) := by
  have hnd : (outF.map (fun i => i.item)).Nodup := by
    have hF₂ := hF
    unfold create_grocery_list at hF₂
    rcases foldlM_ok_chain _ recipes [] outF hF₂ with rfl | ⟨a, b, hf⟩
    · simp
    · rcases create_step_ok mats a b outF hf with ⟨rr, _, hadd⟩
      exact nodup_items_of_pairwise_lt outF (add_recipe_pairwise_lt a rr outF hadd)
  have hF₃ := hF
  unfold create_grocery_list at hF₃
  rcases foldlM_create_canonical mats hfac _
      (fun acc r acc₁ hstep => create_step_ok mats acc r acc₁ hstep)
      recipes [] outF hmatch (by simp) hF₃ with ⟨hc, hv, hn⟩
  refine ⟨hnd, ?_, ?_⟩
  · intro e he
    have hfil := filterName_of_nodup outF hnd e he
    have hvs : valSum e.item outF = e.quantity.value :=
      valSum_of_filterName_singleton _ _ _ hfil
    have hval : e.quantity.value =
        ((filterName e.item (allIngredients recipes)).map
          (fun i => regValue (material_lookup mats) i)).sum := by
      rw [← hvs, hv e.item]
      simp [valSum, filterName]
    rcases hc e he with ⟨m, hm, hu⟩
    have hcu : canonUnit (material_lookup mats) e.item = m.unit := by
      simp [canonUnit, hm]
    obtain ⟨⟨v, u⟩, it⟩ := e
    simp only at hval hu hcu
    rw [hval, hcu, hu]
  · intro n
    rw [hn n]
    simp

/-- C10: on recipes whose items are all catalogued, a successful functional
`create_grocery_list` and a successful OOP `ShoppingCart` shopping list
contain the same multiset of (item, value, unit) entries — the same names
with the same summed quantities in the same canonical units, differing at
most in order. -/
theorem functional_oop_agree (recipes : List RecipeData)
    (mats : List MaterialData) (outF : List IngredientData)
    (outO : List (String × Quantity))
    (hmatch : ∀ r ∈ recipes, ∀ i ∈ r.ingredients,
      ∃ m, material_lookup mats i.item = some m)
    (hfac : ∀ m ∈ mats, m.unit.factor ≠ 0)
    (hF : create_grocery_list recipes mats = Except.ok outF)
    (hO : oop_shopping_list recipes mats = Except.ok outO) :
    (outF.map (fun i => (i.item, i.quantity))).Perm outO := by
  rcases create_grocery_list_props recipes mats outF hmatch hfac hF
    with ⟨hndF, hentF, hnamesF⟩
  rcases oop_shopping_list_ok recipes mats outO hO with ⟨rss, lk₂, hlr, hgsl⟩
  rcases load_recipes_matched (material_lookup mats) recipes rss lk₂ hmatch hlr
    with ⟨hlk₂, hfor⟩
  have hflat := forall₂_flatten hfor
  rcases loadrel_props mats (allIngredients recipes) rss.flatten hflat
    with ⟨hgs, hgsv, hgsnames⟩
  have lkfac : ∀ (n : String) (m : MaterialData),
      material_lookup mats n = some m → m.unit.factor ≠ 0 :=
    fun n m h => hfac m (material_lookup_mem mats n m h).1
  have hgsl₂ : List.foldlM get_shopping_list_step [] rss.flatten =
      Except.ok outO := hgsl
  rcases get_shopping_list_fold_spec (material_lookup mats) lkfac rss.flatten
    [] outO hgs (by simp) (by simp) hgsl₂ with ⟨ond, ocanon, oval, onames⟩
  have hentO : ∀ p ∈ outO, p = (p.1,
      (⟨((filterName p.1 (allIngredients recipes)).map
          (fun i => regValue (material_lookup mats) i)).sum,
        canonUnit (material_lookup mats) p.1⟩ : Quantity)) := by
    intro p hp
    have hget := cart_get_of_mem outO ond p hp
    have hval : p.2.value = ((filterName p.1 (allIngredients recipes)).map
        (fun i => regValue (material_lookup mats) i)).sum := by
      have hcv := oval p.1
      rw [hgsv p.1] at hcv
      rw [cartVal, hget] at hcv
      simpa [cartVal, cart_get] using hcv
    have hunit : p.2.unit = canonUnit (material_lookup mats) p.1 := by
      rcases ocanon p hp with ⟨m, hm, hu⟩
      rw [hu]
      simp [canonUnit, hm]
    obtain ⟨pn, pv, pu⟩ := p
    simp only at hval hunit
    rw [Prod.mk.injEq]
    refine ⟨rfl, ?_⟩
    rw [← hval, ← hunit]
  have hmapF : outF.map (fun i => (i.item, i.quantity)) =
      (outF.map (fun i => i.item)).map (fun n => (n,
        (⟨((filterName n (allIngredients recipes)).map
            (fun i => regValue (material_lookup mats) i)).sum,
          canonUnit (material_lookup mats) n⟩ : Quantity))) := by
    rw [List.map_map]
    apply List.map_congr_left
    intro e he
    have hent := hentF e he
    have hq : e.quantity = (⟨((filterName e.item (allIngredients recipes)).map
        (fun i => regValue (material_lookup mats) i)).sum,
      canonUnit (material_lookup mats) e.item⟩ : Quantity) :=
      congrArg (fun x : IngredientData => x.quantity) hent
    show (e.item, e.quantity) = _
    rw [hq]
    rfl
  have hmapO : outO = (outO.map Prod.fst).map (fun n => (n,
      (⟨((filterName n (allIngredients recipes)).map
          (fun i => regValue (material_lookup mats) i)).sum,
        canonUnit (material_lookup mats) n⟩ : Quantity))) := by
    have hstep : (outO.map Prod.fst).map (fun n => (n,
        (⟨((filterName n (allIngredients recipes)).map
            (fun i => regValue (material_lookup mats) i)).sum,
          canonUnit (material_lookup mats) n⟩ : Quantity))) =
        outO.map (fun p => p) := by
      rw [List.map_map]
      apply List.map_congr_left
      intro p hp
      exact (hentO p hp).symm
    rw [hstep]
    have hid : outO.map (fun p => p) = outO := by
      simp
    rw [hid]
  have hkeysO : ∀ n, n ∈ outO.map Prod.fst ↔
      n ∈ (allIngredients recipes).map (fun i => i.item) := by
    intro n
    rw [onames n, hgsnames]
    simp
  have hkeysperm : (outF.map (fun i => i.item)).Perm (outO.map Prod.fst) := by
    rw [List.perm_ext_iff_of_nodup hndF ond]
    intro n
    rw [hnamesF n, hkeysO n]
  rw [hmapF, hmapO]
  exact hkeysperm.map _

/-- Witness for C10: the two pipelines agree on a two-recipe Flour/Rice
example. -/
theorem functional_oop_agree_witness :
    create_grocery_list [recipeA, recipeB] [flour] =
      Except.ok [⟨⟨700, gram⟩, "Flour"⟩] ∧
    oop_shopping_list [recipeA, recipeB] [flour] =
      Except.ok [("Flour", ⟨700, gram⟩)] ∧
    (([⟨⟨700, gram⟩, "Flour"⟩] : List IngredientData).map
      (fun i => (i.item, i.quantity))).Perm [("Flour", ⟨700, gram⟩)] := by
  have hing1 : regularize_ingredient ⟨⟨200, gram⟩, "Flour"⟩
      (material_lookup [flour]) = Except.ok ⟨⟨200, gram⟩, "Flour"⟩ := by
    rw [regularize_ingredient_matched _ _ flour rfl, if_pos (by decide)]
    unfold Quantity.to
    rw [if_pos (by decide)]
    norm_num [gram, flour, Except.map]
  have hing2 : regularize_ingredient ⟨⟨1, cup⟩, "Flour"⟩
      (material_lookup [flour]) = Except.ok ⟨⟨500, gram⟩, "Flour"⟩ := by
    rw [regularize_ingredient_matched _ _ flour rfl, if_neg (by decide),
      if_neg (by decide), if_pos (by decide)]
    show (Quantity.divTo ⟨1, cup⟩ ⟨1/500, cup, gram⟩ flour.unit).map
        (fun q => (⟨q, "Flour"⟩ : IngredientData)) = _
    rw [Quantity.divTo_ok ⟨1, cup⟩ ⟨1/500, cup, gram⟩ flour.unit rfl rfl]
    norm_num [gram, cup, flour, Except.map]
  have hregA : regularize_recipe recipeA (material_lookup [flour]) =
      Except.ok ⟨"A", "s", [⟨⟨200, gram⟩, "Flour"⟩], []⟩ := by
    unfold regularize_recipe recipeA
    rw [List.mapM_cons, hing1]
    rfl
  have hregB : regularize_recipe recipeB (material_lookup [flour]) =
      Except.ok ⟨"B", "s", [⟨⟨500, gram⟩, "Flour"⟩], []⟩ := by
    unfold regularize_recipe recipeB
    rw [List.mapM_cons, hing2]
    rfl
  have haddA : add_recipe_to_ingredients []
      ⟨"A", "s", [⟨⟨200, gram⟩, "Flour"⟩], []⟩ =
      Except.ok [⟨⟨200, gram⟩, "Flour"⟩] := by
    norm_num [add_recipe_to_ingredients, List.insertionSort, List.orderedInsert,
      itemLe, mergeStep, Quantity.add, gram, List.foldlM, Except.map,
      Bind.bind, Except.bind, Pure.pure, Except.pure]
  have haddB : add_recipe_to_ingredients [⟨⟨200, gram⟩, "Flour"⟩]
      ⟨"B", "s", [⟨⟨500, gram⟩, "Flour"⟩], []⟩ =
      Except.ok [⟨⟨700, gram⟩, "Flour"⟩] := by
    norm_num [add_recipe_to_ingredients, List.insertionSort, List.orderedInsert,
      itemLe, mergeStep, Quantity.add, gram, List.foldlM, Except.map,
      Bind.bind, Except.bind, Pure.pure, Except.pure]
  have hFeval : create_grocery_list [recipeA, recipeB] [flour] =
      Except.ok [⟨⟨700, gram⟩, "Flour"⟩] := by
    unfold create_grocery_list
    rw [List.foldlM_cons]
    simp only [hregA, Bind.bind, Except.bind, haddA]
    rw [List.foldlM_cons]
    simp only [hregB, Bind.bind, Except.bind, haddB, List.foldlM_nil]
    rfl
  have hiniA : Ingredient.init ⟨200, gram⟩ flour = Except.ok ⟨200, gram⟩ := by
    unfold Ingredient.init Quantity.to
    rw [if_pos (by decide), if_pos (by decide)]
    norm_num [gram, flour]
  have hiniB : Ingredient.init ⟨1, cup⟩ flour = Except.ok ⟨500, gram⟩ := by
    unfold Ingredient.init
    rw [if_neg (by decide), if_neg (by decide), if_pos (by decide)]
    show Quantity.divTo ⟨1, cup⟩ ⟨1/500, cup, gram⟩ flour.unit = _
    rw [Quantity.divTo_ok ⟨1, cup⟩ ⟨1/500, cup, gram⟩ flour.unit rfl rfl]
    norm_num [gram, cup, flour]
  have hloadA : load_ingredient (material_lookup [flour]) ⟨⟨200, gram⟩, "Flour"⟩ =
      Except.ok ((⟨flour, ⟨200, gram⟩⟩ : Ingredient), material_lookup [flour]) := by
    rw [load_ingredient_matched _ _ flour rfl, hiniA]
    rfl
  have hloadB : load_ingredient (material_lookup [flour]) ⟨⟨1, cup⟩, "Flour"⟩ =
      Except.ok ((⟨flour, ⟨500, gram⟩⟩ : Ingredient), material_lookup [flour]) := by
    rw [load_ingredient_matched _ _ flour rfl, hiniB]
    rfl
  have hingsA : load_ingredients (material_lookup [flour]) recipeA.ingredients =
      Except.ok ([(⟨flour, ⟨200, gram⟩⟩ : Ingredient)], material_lookup [flour]) := by
    show load_ingredients (material_lookup [flour]) [⟨⟨200, gram⟩, "Flour"⟩] = _
    rw [load_ingredients, hloadA]
    rfl
  have hingsB : load_ingredients (material_lookup [flour]) recipeB.ingredients =
      Except.ok ([(⟨flour, ⟨500, gram⟩⟩ : Ingredient)], material_lookup [flour]) := by
    show load_ingredients (material_lookup [flour]) [⟨⟨1, cup⟩, "Flour"⟩] = _
    rw [load_ingredients, hloadB]
    rfl
  have hrecB : load_recipes (material_lookup [flour]) [recipeB] =
      Except.ok ([[(⟨flour, ⟨500, gram⟩⟩ : Ingredient)]], material_lookup [flour]) := by
    rw [load_recipes, hingsB]
    rfl
  have hlrec : load_recipes (material_lookup [flour]) [recipeA, recipeB] =
      Except.ok ([[(⟨flour, ⟨200, gram⟩⟩ : Ingredient)],
        [(⟨flour, ⟨500, gram⟩⟩ : Ingredient)]], material_lookup [flour]) := by
    rw [load_recipes, hingsA]
    show (do
      let (rss₁, lookup₂) ← load_recipes (material_lookup [flour]) [recipeB]
      Except.ok ([(⟨flour, ⟨200, gram⟩⟩ : Ingredient)] :: rss₁, lookup₂)) = _
    rw [hrecB]
    rfl
  have hcart : get_shopping_list
      [(⟨flour, ⟨200, gram⟩⟩ : Ingredient), ⟨flour, ⟨500, gram⟩⟩] =
      Except.ok [("Flour", ⟨700, gram⟩)] := by
    norm_num [get_shopping_list, List.foldlM, get_shopping_list_step, cart_get,
      Ingredient.init, Quantity.to, Quantity.add, cart_update, flour, gram,
      Bind.bind, Except.bind, Pure.pure, Except.pure]
  have hOeval : oop_shopping_list [recipeA, recipeB] [flour] =
      Except.ok [("Flour", ⟨700, gram⟩)] := by
    unfold oop_shopping_list
    rw [hlrec]
    exact hcart
  refine ⟨hFeval, hOeval, ?_⟩
  have hmatch : ∀ r ∈ [recipeA, recipeB], ∀ i ∈ r.ingredients,
      ∃ m, material_lookup [flour] i.item = some m := by
    intro r hr i hi
    simp only [List.mem_cons, List.not_mem_nil, or_false] at hr
    rcases hr with rfl | rfl
    · simp only [recipeA, List.mem_cons, List.not_mem_nil, or_false] at hi
      subst hi
      exact ⟨flour, rfl⟩
    · simp only [recipeB, List.mem_cons, List.not_mem_nil, or_false] at hi
      subst hi
      exact ⟨flour, rfl⟩
  have hfac : ∀ m ∈ [flour], m.unit.factor ≠ 0 := by
    intro m hm
    simp only [List.mem_cons, List.not_mem_nil, or_false] at hm
    subst hm
    norm_num [flour, gram]
  exact functional_oop_agree [recipeA, recipeB] [flour] _ _ hmatch hfac hFeval hOeval
